import Mathlib

/-!
# Verification of the `Graph` class (`graph.py`)

Shallow embedding of the adjacency-list graph structure from `graph.py`.

The Python object `self.graph` is a `defaultdict(set)` mapping a node to the
set of its neighbours.  We embed it as an insertion-ordered association list
`List (α × List α)`:

* Python `dict`s preserve insertion order, and several derived quantities
  (`vertIndices`, the iteration order of `connectedComps`) depend on that
  order, so the key order is part of the state.
* Python `set` values are embedded as duplicate-free lists; `set.add` appends
  a new element, `set.discard` filters it out.  Set iteration order is
  unspecified in Python, so theorems about traversals only ever use the
  membership and multiplicity of these lists, never a particular order.
* the `defaultdict` behaviour matters: *reading* `self.graph[n]` for a
  missing key `n` inserts `n` with an empty set.  `alUpd l k f` embeds the
  compound operation "`self.graph[k]` (creating the entry if needed), then
  mutate the set in place with `f`"; reading without mutation is `alUpd l k id`.
-/

section AssocList

variable {α : Type} [DecidableEq α]

/-- First-match lookup in an association list; a missing key reads as the
empty set, exactly the value `defaultdict(set)` would create for it. -/
def alGet : List (α × List α) → α → List α
  | [], _ => []
  | (k, v) :: rest, a => if k = a then v else alGet rest a

/-- Key-membership test (`n in self.graph`). -/
def alHas : List (α × List α) → α → Bool
  | [], _ => false
  | (k, _) :: rest, a => k = a || alHas rest a

/-- `self.graph[k]` followed by an in-place mutation `f` of the stored set:
if `k` is present its (first) entry is mutated in place, otherwise the
`defaultdict` appends a fresh entry `(k, f ∅)` at the end of the key order. -/
def alUpd : List (α × List α) → α → (List α → List α) → List (α × List α)
  | [], a, f => [(a, f [])]
  | (k, v) :: rest, a, f =>
      if k = a then (k, f v) :: rest else (k, v) :: alUpd rest a f

/-- `del self.graph[k]` / `self.graph.pop(k)`: remove the (first) entry of `k`. -/
def alDel : List (α × List α) → α → List (α × List α)
  | [], _ => []
  | (k, v) :: rest, a => if k = a then rest else (k, v) :: alDel rest a

/-- `set.add`: append the element unless already present. -/
def sAdd (s : List α) (b : α) : List α :=
  if b ∈ s then s else s ++ [b]

/-- `set.discard`: remove the element if present (no error otherwise). -/
def sDiscard (s : List α) (b : α) : List α :=
  s.filter (fun x => x ≠ b)

/-- The key list of the adjacency map, in dict iteration order. -/
def alKeys (l : List (α × List α)) : List α :=
  l.map Prod.fst

end AssocList

section GraphDef

variable {α : Type} [DecidableEq α]

/-- State of a `Graph` object: the adjacency map and the `newnodes` set used
by `dissolveNode`.  The three private caches (`__connectedComps`,
`__vertIndices`, `__edgeIndices`) are cleared and rebuilt from scratch on
every access of the corresponding property, so they carry no information
between calls and are embedded as pure functions of this state. -/
structure Graph (α : Type) where
  graph : List (α × List α)
  newnodes : List α
  deriving DecidableEq

/-- `Graph()`: empty adjacency map, empty `newnodes`. -/
def Graph.empty : Graph α := ⟨[], []⟩

/-- `nodeExists`: `True if self.graph[node] else False`.  The `defaultdict`
read can add `node` as a key, so the (possibly changed) state is returned
alongside the boolean. -/
def nodeExists (g : Graph α) (node : α) : Bool × Graph α :=
  let l := alUpd g.graph node id
  (decide (alGet l node ≠ []), { g with graph := l })

/-- `edgeExists`: `node2 in self.graph[node1]` (touches only `node1`). -/
def edgeExists (g : Graph α) (node1 node2 : α) : Bool × Graph α :=
  let l := alUpd g.graph node1 id
  (decide (node2 ∈ alGet l node1), { g with graph := l })

/-- `directlyConnected`: `node1 in self.graph[node2] or node2 in self.graph[node1]`,
with Python's short-circuit `or` (the second `defaultdict` read happens only
if the first test fails). -/
def directlyConnected (g : Graph α) (node1 node2 : α) : Bool × Graph α :=
  let l1 := alUpd g.graph node2 id
  if node1 ∈ alGet l1 node2 then (true, { g with graph := l1 })
  else
    let l2 := alUpd l1 node1 id
    (decide (node2 ∈ alGet l2 node1), { g with graph := l2 })

/-- `addEdge`: `self.graph[node1].add(node2); self.graph[node2].add(node1)`. -/
def addEdge (g : Graph α) (node1 node2 : α) : Graph α :=
  { g with graph := alUpd (alUpd g.graph node1 (fun s => sAdd s node2)) node2 (fun s => sAdd s node1) }

/-- `deleteEdge`: `self.graph[node1].discard(node2); self.graph[node2].discard(node1)`. -/
def deleteEdge (g : Graph α) (node1 node2 : α) : Graph α :=
  { g with graph := alUpd (alUpd g.graph node1 (fun s => sDiscard s node2)) node2 (fun s => sDiscard s node1) }

/-- `deleteNode`: clear the node's set, delete its key, then discard the node
from every remaining adjacency set. -/
def deleteNode (g : Graph α) (node : α) : Graph α :=
  let l1 := alUpd g.graph node (fun _ => [])
  let l2 := alDel l1 node
  { g with graph := l2.map (fun kv => (kv.1, sDiscard kv.2 node)) }

/-- `itertools.combinations(l, 2)`: all pairs of elements in order. -/
def combinations2 : List α → List (α × α)
  | [] => []
  | x :: xs => xs.map (fun y => (x, y)) ++ combinations2 xs

/-- `dissolveNode`: clear the node's set; walk the map recording every node
adjacent to it into the *persistent* `newnodes` set (the Python code never
clears `self.newnodes` between calls) while discarding it from each set;
finally `addEdge` every pair of `combinations(self.newnodes, 2)`. -/
def dissolveNode (g : Graph α) (node : α) : Graph α :=
  let l1 := alUpd g.graph node (fun _ => [])
  let nn := l1.foldl (fun acc kv => if node ∈ kv.2 then sAdd acc kv.1 else acc) g.newnodes
  let l2 := l1.map (fun kv => (kv.1, sDiscard kv.2 node))
  (combinations2 nn).foldl (fun h p => addEdge h p.1 p.2) { graph := l2, newnodes := nn }

end GraphDef

/-- Coordinate nodes: the motivating use case stores nodes as pairs of real
coordinates.  Python's float arithmetic is embedded as exact rational
arithmetic (`* 0.5` becomes `/ 2`). -/
abbrev Node : Type := ℚ × ℚ

/-- Component-wise `tuple(map(operator.add, t, off))` for coordinate pairs. -/
def nodeAdd (t off : Node) : Node := (t.1 + off.1, t.2 + off.2)

/-- `splitEdge`: midpoint node, delete `(node1, node2)`, add the two halves. -/
def splitEdge (g : Graph Node) (node1 node2 : Node) : Graph Node :=
  let newnode : Node := ((node1.1 + node2.1) / 2, (node1.2 + node2.2) / 2)
  addEdge (addEdge (deleteEdge g node1 node2) node1 newnode) newnode node2

/-- `moveNode`: the `isinstance` guards always pass for coordinate pairs;
`self.graph.pop(targNode)` raises `KeyError` (embedded as `none`) when the
target is not a key; otherwise delete the target and reconnect the popped
adjacency set to the offset node. -/
def moveNode (g : Graph Node) (targNode offset : Node) : Option (Graph Node) :=
  if alHas g.graph targNode then
    let adjNodes := alGet g.graph targNode
    let g1 : Graph Node := { g with graph := alDel g.graph targNode }
    let g2 := deleteNode g1 targNode
    let t2 := nodeAdd targNode offset
    some (adjNodes.foldl (fun h n => addEdge h t2 n) g2)
  else none

section Traversal

variable {α : Type} [DecidableEq α]

/-- All node occurrences stored in the adjacency map (keys and neighbours);
its length bounds every traversal, supplying the fuel for the two DFS
routines.  (The `defaultdict` reads inside the Python loops can only append
keys with empty sets, which changes no `alGet` result, so the traversals are
embedded as pure functions of the map.) -/
def nodesOf (l : List (α × List α)) : List α :=
  l.flatMap (fun kv => kv.1 :: kv.2)

/-- Loop body of `dfsrecrusive`: append `thisnode` to `visited` and
`component`, then for each stored neighbour not yet visited recurse,
threading `(component, visited)` exactly as the Python code does (it rebinds
`component` to the returned list and mutates `visited` in place). -/
def dfsRecAux (l : List (α × List α)) : ℕ → α → List α → List α → List α × List α
  | 0, _, component, visited => (component, visited)
  | fuel + 1, thisnode, component, visited =>
      (alGet l thisnode).foldl
        (fun cv adjnode =>
          if adjnode ∈ cv.2 then cv else dfsRecAux l fuel adjnode cv.1 cv.2)
        (component ++ [thisnode], visited ++ [thisnode])

/-- `dfsrecrusive(thisnode, component, visited)`; returns the component
together with the final `visited` list (which Python mutates in place). -/
def dfsrecrusive (g : Graph α) (thisnode : α) (component visited : List α) :
    List α × List α :=
  dfsRecAux g.graph ((nodesOf g.graph).length + 1) thisnode component visited

/-- Loop body of `dfsiterative`.  The Python stack pops from the end and
`extend`s with the neighbour set; we keep the top of the stack at the head,
so pushing appends the reversed neighbour list. -/
def dfsItAux (l : List (α × List α)) : ℕ → List α → List α → List α → List α × List α
  | 0, _, component, visited => (component, visited)
  | fuel + 1, stack, component, visited =>
      match stack with
      | [] => (component, visited)
      | node :: rest =>
          if node ∈ visited then dfsItAux l fuel rest component visited
          else
            dfsItAux l fuel ((alGet l node).reverse ++ rest)
              (component ++ [node]) (visited ++ [node])

/-- `dfsiterative(thisnode, visited)`: custom stack seeded with the start
node, empty component; returns the component and the final `visited`. -/
def dfsiterative (g : Graph α) (thisnode : α) (visited : List α) :
    List α × List α :=
  dfsItAux g.graph ((nodesOf g.graph).length + 2 + visited.length) [thisnode] [] visited

/-- One step of the `connectedComps` loop over the adjacency-map entries. -/
def ccAux (g : Graph α) : List (α × List α) → List (List α) × List α → List (List α) × List α
  | [], acc => acc
  | kv :: rest, acc =>
      ccAux g rest
        (if kv.1 ∈ acc.2 then acc
         else
           let cv := dfsrecrusive g kv.1 [] acc.2
           (acc.1 ++ [cv.1], cv.2))

/-- `connectedComps`: clear the cache, then for every key (in dict order) not
yet visited run a DFS and record the component.  The Python property runs the
recursive DFS and falls back to the iterative one only on `RecursionError`, a
stack-depth condition with no counterpart in a total embedding; the recursive
branch provides the semantics (the DFS-equivalence theorem shows the two
traversals agree on membership). -/
def connectedComps (g : Graph α) : List (List α) :=
  (ccAux g g.graph ([], [])).1

/-- `areConnected`: some component contains both nodes. -/
def areConnected (g : Graph α) (node1 node2 : α) : Bool :=
  (connectedComps g).any (fun comp => node1 ∈ comp && node2 ∈ comp)

end Traversal

section Indices

variable {α : Type} [DecidableEq α]

/-- `vertIndices`: enumerate the adjacency-map keys, `node : index`. -/
def vertIndices (g : Graph α) : List (α × ℕ) :=
  g.graph.enum.map (fun iv => (iv.2.1, iv.1))

/-- `dict.get`: first-match lookup returning `None` for a missing key. -/
def vGet : List (α × ℕ) → α → Option ℕ
  | [], _ => none
  | (k, i) :: rest, a => if k = a then some i else vGet rest a

/-- `edgeIndices`: collect `(vertIndices.get(node), vertIndices.get(adjnode))`
for every stored direction of every edge into a set, intersect with
`combinations(vertIndices.values(), 2)` and flatten.  Python set contents are
embedded as a deduplicated list (iteration order of a Python set is
unspecified; only membership and length are ever asserted). -/
def edgeIndices (g : Graph α) : List ℕ :=
  let vi := vertIndices g
  let raw : List (Option ℕ × Option ℕ) :=
    g.graph.flatMap (fun kv => kv.2.map (fun adj => (vGet vi kv.1, vGet vi adj)))
  let kept :=
    raw.dedup.filter
      (fun p => (combinations2 (vi.map Prod.snd)).any (fun q => p = (some q.1, some q.2)))
  kept.flatMap (fun p =>
    match p with
    | (some i, some j) => [i, j]
    | _ => [])

/-- Position of a node in the key order (used only to state edge counts). -/
def keyPos (g : Graph α) (a : α) : ℕ :=
  (alKeys g.graph).indexOf a

/-- Modelled from the spec: "number of distinct undirected edges" — every
stored adjacency `(u, v)` normalised so the endpoint earlier in the key
order comes first, counted without duplicates. -/
def specUndirectedEdgeCount (g : Graph α) : ℕ :=
  ((g.graph.flatMap (fun kv =>
      kv.2.map (fun m =>
        if keyPos g kv.1 ≤ keyPos g m then (kv.1, m) else (m, kv.1)))).dedup).length

end Indices

section Ops

/-- The public mutating surface, for statements about operation sequences.
Node values are coordinate pairs (the motivating use case; `splitEdge` and
`moveNode` are only defined on those). -/
inductive Op : Type
  | add (a b : Node)
  | del (a b : Node)
  | delNode (n : Node)
  | dissolve (n : Node)
  | split (a b : Node)
  | move (t off : Node)

/-- Apply one operation; `moveNode` is the only one that can raise. -/
def applyOp (g : Graph Node) : Op → Option (Graph Node)
  | .add a b => some (addEdge g a b)
  | .del a b => some (deleteEdge g a b)
  | .delNode n => some (deleteNode g n)
  | .dissolve n => some (dissolveNode g n)
  | .split a b => some (splitEdge g a b)
  | .move t off => moveNode g t off

/-- Run a sequence of operations, propagating a raised error. -/
def runOps : Graph Node → List Op → Option (Graph Node)
  | g, [] => some g
  | g, op :: ops =>
      match applyOp g op with
      | some g' => runOps g' ops
      | none => none

/-- Guard under which an operation cannot create a self-loop: `addEdge` and
`splitEdge` take distinct endpoints, and `moveNode` does not land the target
on one of its former neighbours. -/
def okOp (g : Graph Node) : Op → Bool
  | .add a b => decide (a ≠ b)
  | .split a b => decide (a ≠ b)
  | .move t off => decide (nodeAdd t off ∉ alGet g.graph t)
  | _ => true

/-- Every operation of the run satisfies its self-loop guard in the state it
is applied to. -/
def okRun : Graph Node → List Op → Bool
  | _, [] => true
  | g, op :: ops =>
      okOp g op &&
        match applyOp g op with
        | some g' => okRun g' ops
        | none => true

end Ops

section Predicates

variable {α : Type} [DecidableEq α]

/-- The adjacency map stores every edge in both directions. -/
def Symm (g : Graph α) : Prop :=
  ∀ a b : α, b ∈ alGet g.graph a → a ∈ alGet g.graph b

/-- No node is a member of its own neighbour set. -/
def NoLoop (g : Graph α) : Prop :=
  ∀ a : α, a ∉ alGet g.graph a

/-- Well-formedness inherent to a Python `dict`: keys are distinct. -/
def WFKeys (g : Graph α) : Prop :=
  (alKeys g.graph).Nodup

/-- Bounded symmetry test over the stored entries (used to discharge `Symm`
on concrete graphs). -/
def symmCheck (g : Graph α) : Bool :=
  g.graph.all (fun kv => kv.2.all (fun m => decide (kv.1 ∈ alGet g.graph m)))

/-- Bounded self-loop test over the stored entries. -/
def loopCheck (g : Graph α) : Bool :=
  g.graph.all (fun kv => decide (kv.1 ∉ kv.2))

end Predicates

section AssocLemmas

variable {α : Type} [DecidableEq α]

theorem alGet_alUpd (l : List (α × List α)) (k : α) (f : List α → List α) (m : α) :
    alGet (alUpd l k f) m = if m = k then f (alGet l k) else alGet l m := by
  induction l with
  | nil =>
      by_cases h : m = k
      · subst h; simp [alUpd, alGet]
      · have h2 : ¬ (k = m) := fun hc => h hc.symm
        simp [alUpd, alGet, h, h2]
  | cons kv rest ih =>
      obtain ⟨k0, v0⟩ := kv
      by_cases hk : k0 = k
      · subst hk
        by_cases hm : k0 = m
        · subst hm; simp [alUpd, alGet]
        · have hmk : ¬ (m = k0) := fun hc => hm hc.symm
          simp [alUpd, alGet, hm, hmk]
      · by_cases hm : k0 = m
        · subst hm
          simp [alUpd, alGet, hk, fun hc : k0 = k => hk hc]
        · simp [alUpd, alGet, hk, hm, ih]

theorem alHas_alUpd (l : List (α × List α)) (k : α) (f : List α → List α) (m : α) :
    alHas (alUpd l k f) m = (decide (m = k) || alHas l m) := by
  induction l with
  | nil =>
      by_cases h : m = k
      · subst h; simp [alUpd, alHas]
      · have h2 : ¬ (k = m) := fun hc => h hc.symm
        simp [alUpd, alHas, h, h2]
  | cons kv rest ih =>
      obtain ⟨k0, v0⟩ := kv
      by_cases hk : k0 = k
      · subst hk
        by_cases hm : k0 = m
        · subst hm; simp [alUpd, alHas]
        · have hmk : ¬ (m = k0) := fun hc => hm hc.symm
          simp [alUpd, alHas, hm, hmk]
      · by_cases hm : k0 = m
        · subst hm; simp [alUpd, alHas, hk]
        · simp [alUpd, alHas, hk, hm, ih]

theorem alKeys_alUpd (l : List (α × List α)) (k : α) (f : List α → List α) :
    alKeys (alUpd l k f) = if alHas l k then alKeys l else alKeys l ++ [k] := by
  induction l with
  | nil => simp [alUpd, alHas, alKeys]
  | cons kv rest ih =>
      obtain ⟨k0, v0⟩ := kv
      have ih2 : List.map Prod.fst (alUpd rest k f) =
          if alHas rest k then List.map Prod.fst rest
          else List.map Prod.fst rest ++ [k] := by
        simpa [alKeys] using ih
      by_cases hk : k0 = k
      · subst hk; simp [alUpd, alHas, alKeys]
      · by_cases hr : alHas rest k <;>
          simp [alUpd, alHas, alKeys, hk, hr, ih2]

theorem alHas_iff_mem_keys (l : List (α × List α)) (a : α) :
    alHas l a = true ↔ a ∈ alKeys l := by
  induction l with
  | nil => simp [alHas, alKeys]
  | cons kv rest ih =>
      obtain ⟨k0, v0⟩ := kv
      by_cases h : k0 = a
      · subst h; simp [alHas, alKeys]
      · have h2 : ¬ (a = k0) := fun hc => h hc.symm
        simp [alHas, alKeys, h, h2, ih]

theorem alGet_eq_nil_of_not_has (l : List (α × List α)) (a : α)
    (h : alHas l a = false) : alGet l a = [] := by
  induction l with
  | nil => rfl
  | cons kv rest ih =>
      obtain ⟨k0, v0⟩ := kv
      by_cases hk : k0 = a
      · simp [alHas, hk] at h
      · simp only [alHas, Bool.or_eq_false_iff] at h
        simp [alGet, hk, ih h.2]

theorem mem_entry_of_alGet (l : List (α × List α)) (a : α)
    (h : alGet l a ≠ []) : (a, alGet l a) ∈ l := by
  induction l with
  | nil => simp [alGet] at h
  | cons kv rest ih =>
      obtain ⟨k0, v0⟩ := kv
      by_cases hk : k0 = a
      · subst hk
        have hg : alGet ((k0, v0) :: rest) k0 = v0 := by simp [alGet]
        rw [hg]
        exact List.mem_cons_self _ _
      · simp only [alGet, if_neg hk] at h ⊢
        exact List.mem_cons_of_mem _ (ih h)

theorem alGet_alDel_ne (l : List (α × List α)) (k m : α) (h : m ≠ k) :
    alGet (alDel l k) m = alGet l m := by
  induction l with
  | nil => rfl
  | cons kv rest ih =>
      obtain ⟨k0, v0⟩ := kv
      by_cases hk : k0 = k
      · subst hk
        have h2 : ¬ (k0 = m) := fun hc => h hc.symm
        simp [alDel, alGet, h2]
      · by_cases hm : k0 = m
        · subst hm; simp [alDel, alGet, hk]
        · simp [alDel, alGet, hk, hm, ih]

theorem alGet_alDel_self (l : List (α × List α)) (k : α)
    (h : (alKeys l).Nodup) : alGet (alDel l k) k = [] := by
  induction l with
  | nil => rfl
  | cons kv rest ih =>
      obtain ⟨k0, v0⟩ := kv
      simp only [alKeys, List.map_cons, List.nodup_cons] at h
      by_cases hk : k0 = k
      · subst hk
        have hd : alDel ((k0, v0) :: rest) k0 = rest := by simp [alDel]
        rw [hd]
        apply alGet_eq_nil_of_not_has
        cases hx : alHas rest k0 with
        | false => rfl
        | true =>
            exact absurd ((alHas_iff_mem_keys rest k0).mp hx) h.1
      · simp only [alDel, if_neg hk, alGet, if_neg hk]
        exact ih h.2

theorem alKeys_alDel (l : List (α × List α)) (k : α) :
    alKeys (alDel l k) = (alKeys l).erase k := by
  induction l with
  | nil => rfl
  | cons kv rest ih =>
      obtain ⟨k0, v0⟩ := kv
      by_cases hk : k0 = k
      · subst hk; simp [alDel, alKeys, List.erase_cons_head]
      · have ih2 : List.map Prod.fst (alDel rest k) =
            (List.map Prod.fst rest).erase k := by simpa [alKeys] using ih
        simp [alDel, alKeys, hk, ih2, List.erase_cons_tail]

theorem alGet_map_val (l : List (α × List α)) (f : List α → List α)
    (hf : f [] = []) (m : α) :
    alGet (l.map (fun kv => (kv.1, f kv.2))) m = f (alGet l m) := by
  induction l with
  | nil => simp [alGet, hf]
  | cons kv rest ih =>
      obtain ⟨k0, v0⟩ := kv
      by_cases hk : k0 = m <;> simp [alGet, hk, ih]

theorem alKeys_map_val (l : List (α × List α)) (f : List α → List α) :
    alKeys (l.map (fun kv => (kv.1, f kv.2))) = alKeys l := by
  induction l with
  | nil => rfl
  | cons kv rest ih =>
      obtain ⟨k0, v0⟩ := kv
      have ih2 : List.map Prod.fst (rest.map (fun kv => (kv.1, f kv.2))) =
          List.map Prod.fst rest := by simpa [alKeys] using ih
      simp [alKeys, ih2]

theorem alGet_map_discard (l : List (α × List α)) (n m : α) :
    alGet (l.map (fun kv => (kv.1, sDiscard kv.2 n))) m = sDiscard (alGet l m) n := by
  induction l with
  | nil => simp [alGet, sDiscard]
  | cons kv rest ih =>
      obtain ⟨k0, v0⟩ := kv
      by_cases hk : k0 = m <;> simp [alGet, hk, ih]

theorem alKeys_map_discard (l : List (α × List α)) (n : α) :
    alKeys (l.map (fun kv => (kv.1, sDiscard kv.2 n))) = alKeys l := by
  induction l with
  | nil => rfl
  | cons kv rest ih =>
      obtain ⟨k0, v0⟩ := kv
      have ih2 : List.map Prod.fst (rest.map (fun kv => (kv.1, sDiscard kv.2 n))) =
          List.map Prod.fst rest := by simpa [alKeys] using ih
      simp [alKeys, ih2]

theorem mem_sAdd (s : List α) (a b : α) :
    a ∈ sAdd s b ↔ a ∈ s ∨ a = b := by
  by_cases h : b ∈ s
  · simp only [sAdd, if_pos h]
    constructor
    · exact Or.inl
    · rintro (h1 | rfl) <;> [exact h1; exact h]
  · simp [sAdd, if_neg h]

theorem sAdd_nodup (s : List α) (b : α) (h : s.Nodup) : (sAdd s b).Nodup := by
  by_cases hb : b ∈ s
  · simpa [sAdd, if_pos hb]
  · simp [sAdd, if_neg hb, List.nodup_append, h, hb]

theorem mem_sDiscard (s : List α) (a b : α) :
    a ∈ sDiscard s b ↔ a ∈ s ∧ a ≠ b := by
  simp [sDiscard]

theorem wfKeys_alUpd (l : List (α × List α)) (k : α) (f : List α → List α)
    (h : (alKeys l).Nodup) : (alKeys (alUpd l k f)).Nodup := by
  rw [alKeys_alUpd]
  by_cases hk : alHas l k = true
  · simpa [hk]
  · have hmem : k ∉ alKeys l := fun hc => hk ((alHas_iff_mem_keys l k).mpr hc)
    have hk2 : alHas l k = false := by
      cases hx : alHas l k
      · rfl
      · exact absurd hx hk
    simp [hk2, List.nodup_append, h, hmem]

theorem wfKeys_alDel (l : List (α × List α)) (k : α)
    (h : (alKeys l).Nodup) : (alKeys (alDel l k)).Nodup := by
  rw [alKeys_alDel]; exact h.erase k

theorem alGet_alUpd_id (l : List (α × List α)) (a m : α) :
    alGet (alUpd l a id) m = alGet l m := by
  rw [alGet_alUpd]
  by_cases h : m = a <;> simp [h]

end AssocLemmas

section OpLemmas

variable {α : Type} [DecidableEq α]

theorem addEdge_newnodes (g : Graph α) (a b : α) :
    (addEdge g a b).newnodes = g.newnodes := rfl

theorem deleteEdge_newnodes (g : Graph α) (a b : α) :
    (deleteEdge g a b).newnodes = g.newnodes := rfl

theorem deleteNode_newnodes (g : Graph α) (n : α) :
    (deleteNode g n).newnodes = g.newnodes := rfl

theorem mem_alGet_addEdge (g : Graph α) (a b x m : α) :
    x ∈ alGet (addEdge g a b).graph m ↔
      x ∈ alGet g.graph m ∨ (m = a ∧ x = b) ∨ (m = b ∧ x = a) := by
  have h1 : alGet (addEdge g a b).graph m =
      if m = b then
        sAdd (if b = a then sAdd (alGet g.graph a) b else alGet g.graph b) a
      else if m = a then sAdd (alGet g.graph a) b else alGet g.graph m := by
    simp only [addEdge, alGet_alUpd]
  rw [h1]
  by_cases hmb : m = b
  · subst hmb
    by_cases hba : m = a
    · subst hba
      simp [mem_sAdd]
      all_goals tauto
    · simp [mem_sAdd, hba]
      all_goals tauto
  · by_cases hma : m = a
    · subst hma
      simp [mem_sAdd, hmb]
      all_goals tauto
    · simp [hmb, hma]

theorem mem_alGet_deleteEdge (g : Graph α) (a b x m : α) :
    x ∈ alGet (deleteEdge g a b).graph m ↔
      x ∈ alGet g.graph m ∧ ¬(m = a ∧ x = b) ∧ ¬(m = b ∧ x = a) := by
  have h1 : alGet (deleteEdge g a b).graph m =
      if m = b then
        sDiscard (if b = a then sDiscard (alGet g.graph a) b else alGet g.graph b) a
      else if m = a then sDiscard (alGet g.graph a) b else alGet g.graph m := by
    simp only [deleteEdge, alGet_alUpd]
  rw [h1]
  by_cases hmb : m = b
  · subst hmb
    by_cases hba : m = a
    · subst hba
      simp [mem_sDiscard]
      all_goals tauto
    · simp [mem_sDiscard, hba]
      all_goals tauto
  · by_cases hma : m = a
    · subst hma
      simp [mem_sDiscard, hmb]
      all_goals tauto
    · simp [hmb, hma]

theorem wfKeys_addEdge (g : Graph α) (a b : α) (h : WFKeys g) :
    WFKeys (addEdge g a b) :=
  wfKeys_alUpd _ _ _ (wfKeys_alUpd _ _ _ h)

theorem wfKeys_deleteEdge (g : Graph α) (a b : α) (h : WFKeys g) :
    WFKeys (deleteEdge g a b) :=
  wfKeys_alUpd _ _ _ (wfKeys_alUpd _ _ _ h)

theorem deleteNode_graph_eq (g : Graph α) (n : α) :
    (deleteNode g n).graph =
      (alDel (alUpd g.graph n (fun _ => [])) n).map (fun kv => (kv.1, sDiscard kv.2 n)) := rfl

theorem wfKeys_deleteNode (g : Graph α) (n : α) (h : WFKeys g) :
    WFKeys (deleteNode g n) := by
  show (alKeys _).Nodup
  rw [deleteNode_graph_eq, alKeys_map_discard]
  exact wfKeys_alDel _ _ (wfKeys_alUpd _ _ _ h)

theorem alGet_deleteNode_self (g : Graph α) (n : α) (h : WFKeys g) :
    alGet (deleteNode g n).graph n = [] := by
  rw [deleteNode_graph_eq, alGet_map_discard,
    alGet_alDel_self _ _ (wfKeys_alUpd _ _ _ h)]
  simp [sDiscard]

theorem mem_alGet_deleteNode (g : Graph α) (n x m : α) (h : WFKeys g) :
    x ∈ alGet (deleteNode g n).graph m ↔
      x ∈ alGet g.graph m ∧ x ≠ n ∧ m ≠ n := by
  by_cases hm : m = n
  · subst hm
    rw [alGet_deleteNode_self g m h]
    simp
  · rw [deleteNode_graph_eq, alGet_map_discard,
      alGet_alDel_ne _ _ _ hm, alGet_alUpd]
    simp only [if_neg hm, mem_sDiscard]
    tauto

theorem alHas_deleteNode (g : Graph α) (n m : α) (h : WFKeys g) :
    alHas (deleteNode g n).graph m = (alHas g.graph m && decide (m ≠ n)) := by
  have hkeys : alKeys (deleteNode g n).graph =
      (alKeys (alUpd g.graph n (fun _ => []))).erase n := by
    rw [deleteNode_graph_eq, alKeys_map_discard, alKeys_alDel]
  have hwf1 : (alKeys (alUpd g.graph n (fun _ => []))).Nodup := wfKeys_alUpd _ _ _ h
  cases hx : (alHas g.graph m && decide (m ≠ n)) with
  | true =>
      rw [Bool.and_eq_true] at hx
      have hmem : m ∈ alKeys g.graph := (alHas_iff_mem_keys _ _).mp hx.1
      have hmn : m ≠ n := of_decide_eq_true hx.2
      apply (alHas_iff_mem_keys _ _).mpr
      rw [hkeys]
      apply (List.Nodup.mem_erase_iff hwf1).mpr
      refine ⟨hmn, ?_⟩
      rw [alKeys_alUpd]
      by_cases hn : alHas g.graph n = true <;> simp [hn, hmem]
  | false =>
      cases hy : alHas (deleteNode g n).graph m with
      | false => rfl
      | true =>
          exfalso
          have hmem : m ∈ alKeys (deleteNode g n).graph := (alHas_iff_mem_keys _ _).mp hy
          rw [hkeys] at hmem
          have h2 := (List.Nodup.mem_erase_iff hwf1).mp hmem
          rw [alKeys_alUpd] at h2
          rw [Bool.and_eq_false_iff] at hx
          rcases hx with hx | hx
          · rcases h2 with ⟨hmn, h2⟩
            by_cases hn : alHas g.graph n = true
            · rw [if_pos hn] at h2
              exact absurd ((alHas_iff_mem_keys _ _).mpr h2) (by simp [hx])
            · rw [if_neg hn] at h2
              rcases List.mem_append.mp h2 with h2 | h2
              · exact absurd ((alHas_iff_mem_keys _ _).mpr h2) (by simp [hx])
              · exact hmn (by simpa using h2)
          · exact (of_decide_eq_false hx) h2.1

theorem mem_alGet_foldl_addEdge (ps : List (α × α)) (h : Graph α) (x m : α) :
    x ∈ alGet ((ps.foldl (fun h2 p => addEdge h2 p.1 p.2) h)).graph m ↔
      x ∈ alGet h.graph m ∨ ∃ p ∈ ps, (m = p.1 ∧ x = p.2) ∨ (m = p.2 ∧ x = p.1) := by
  induction ps generalizing h with
  | nil => simp
  | cons p ps ih =>
      rw [List.foldl_cons, ih, mem_alGet_addEdge]
      constructor
      · rintro ((h1 | h1 | h1) | ⟨q, hq, h1⟩)
        · exact Or.inl h1
        · exact Or.inr ⟨p, List.mem_cons_self _ _, Or.inl h1⟩
        · exact Or.inr ⟨p, List.mem_cons_self _ _, Or.inr h1⟩
        · exact Or.inr ⟨q, List.mem_cons_of_mem _ hq, h1⟩
      · rintro (h1 | ⟨q, hq, h1⟩)
        · exact Or.inl (Or.inl h1)
        · rcases List.mem_cons.mp hq with rfl | hq
          · rcases h1 with h1 | h1
            · exact Or.inl (Or.inr (Or.inl h1))
            · exact Or.inl (Or.inr (Or.inr h1))
          · exact Or.inr ⟨q, hq, h1⟩

theorem foldl_addEdge_newnodes (ps : List (α × α)) (h : Graph α) :
    ((ps.foldl (fun h2 p => addEdge h2 p.1 p.2) h)).newnodes = h.newnodes := by
  induction ps generalizing h with
  | nil => rfl
  | cons p ps ih => rw [List.foldl_cons, ih, addEdge_newnodes]

theorem wfKeys_foldl_addEdge (ps : List (α × α)) (h : Graph α) (hw : WFKeys h) :
    WFKeys ((ps.foldl (fun h2 p => addEdge h2 p.1 p.2) h)) := by
  induction ps generalizing h with
  | nil => exact hw
  | cons p ps ih => exact ih _ (wfKeys_addEdge _ _ _ hw)

theorem symmCheck_symm (g : Graph α) (h : symmCheck g = true) : Symm g := by
  intro a b hb
  have hne : alGet g.graph a ≠ [] := by
    intro hc
    rw [hc] at hb
    exact absurd hb (List.not_mem_nil b)
  have hmem := mem_entry_of_alGet g.graph a hne
  rw [symmCheck, List.all_eq_true] at h
  have h2 := h _ hmem
  rw [List.all_eq_true] at h2
  exact of_decide_eq_true (h2 b hb)

theorem loopCheck_noLoop (g : Graph α) (h : loopCheck g = true) : NoLoop g := by
  intro a ha
  have hne : alGet g.graph a ≠ [] := by
    intro hc
    rw [hc] at ha
    exact absurd ha (List.not_mem_nil a)
  have hmem := mem_entry_of_alGet g.graph a hne
  rw [loopCheck, List.all_eq_true] at h
  exact (of_decide_eq_true (h _ hmem)) ha

end OpLemmas

section ClaimHelpers

variable {α : Type} [DecidableEq α]

theorem sDiscard_eq_self (s : List α) (b : α) (h : b ∉ s) : sDiscard s b = s := by
  apply List.filter_eq_self.mpr
  intro x hx
  exact decide_eq_true (fun hxb : x = b => h (hxb ▸ hx))

theorem alUpd_eq_self (l : List (α × List α)) (k : α) (f : List α → List α)
    (hk : alHas l k = true) (hf : f (alGet l k) = alGet l k) : alUpd l k f = l := by
  induction l with
  | nil => simp [alHas] at hk
  | cons kv rest ih =>
      obtain ⟨k0, v0⟩ := kv
      by_cases h : k0 = k
      · subst h
        have hg : alGet ((k0, v0) :: rest) k0 = v0 := by simp [alGet]
        rw [hg] at hf
        simp [alUpd, hf]
      · have hk2 : alHas rest k = true := by
          simp only [alHas, Bool.or_eq_true] at hk
          rcases hk with hk | hk
          · exact absurd (of_decide_eq_true hk) h
          · exact hk
        have hg : alGet ((k0, v0) :: rest) k = alGet rest k := by simp [alGet, h]
        rw [hg] at hf
        simp [alUpd, h, ih hk2 hf]

theorem edgeExists_fst_true_iff (g : Graph α) (a b : α) :
    (edgeExists g a b).1 = true ↔ b ∈ alGet g.graph a := by
  simp only [edgeExists]
  rw [decide_eq_true_eq, alGet_alUpd_id]

theorem nodeExists_fst_false_iff (g : Graph α) (a : α) :
    (nodeExists g a).1 = false ↔ alGet g.graph a = [] := by
  simp only [nodeExists]
  rw [decide_eq_false_iff_not, alGet_alUpd_id]
  exact not_not

end ClaimHelpers

/-- An asymmetric state used as a counterexample input: node `1` stores `0`
as a neighbour but not conversely. -/
def gAsym : Graph ℕ := ⟨[(0, []), (1, [0])], []⟩

section ClaimsA

variable {α : Type} [DecidableEq α]

/-- **C1** (counterexample): the claim that queries leave the adjacency map
unchanged fails — `nodeExists` on the empty graph turns the queried node into
a key of the adjacency map (a `defaultdict` read creates the entry). -/
theorem c1_counterexample :
    alHas (Graph.empty : Graph ℕ).graph 0 = false ∧
    alHas ((nodeExists (Graph.empty : Graph ℕ) 0).2).graph 0 = true ∧
    (nodeExists (Graph.empty : Graph ℕ) 0).2.graph = [(0, [])] := by
  decide

/-- **C1** (amended): the query operations `nodeExists`, `edgeExists` and
`directlyConnected` change no stored neighbour set (every `alGet` is
preserved) and add no edge, but the `defaultdict` reads may append queried
nodes that are not yet keys as fresh keys with empty neighbour sets:
`nodeExists(a)` and `edgeExists(a,b)` make `a` a key if it was absent, and
`directlyConnected(a,b)` adds at most `b` and `a`. -/
theorem c1_queries_preserve_adjacency (g : Graph α) (a b : α) :
    (∀ m, alGet ((nodeExists g a).2).graph m = alGet g.graph m) ∧
    (∀ m, alGet ((edgeExists g a b).2).graph m = alGet g.graph m) ∧
    (∀ m, alGet ((directlyConnected g a b).2).graph m = alGet g.graph m) ∧
    (alKeys ((nodeExists g a).2).graph =
      if alHas g.graph a then alKeys g.graph else alKeys g.graph ++ [a]) ∧
    (alKeys ((edgeExists g a b).2).graph =
      if alHas g.graph a then alKeys g.graph else alKeys g.graph ++ [a]) ∧
    (∀ k, alHas ((directlyConnected g a b).2).graph k = true →
      alHas g.graph k = true ∨ k = a ∨ k = b) := by
  refine ⟨fun m => alGet_alUpd_id _ _ _, fun m => alGet_alUpd_id _ _ _, ?_,
    alKeys_alUpd _ _ _, alKeys_alUpd _ _ _, ?_⟩
  · intro m
    unfold directlyConnected
    by_cases h : a ∈ alGet (alUpd g.graph b id) b
    · simp only [if_pos h]
      exact alGet_alUpd_id _ _ _
    · simp only [if_neg h]
      rw [alGet_alUpd_id, alGet_alUpd_id]
  · intro k
    unfold directlyConnected
    by_cases h : a ∈ alGet (alUpd g.graph b id) b
    · simp only [if_pos h]
      rw [alHas_alUpd]
      intro hk
      rcases Bool.or_eq_true _ _ |>.mp hk with hk | hk
      · exact Or.inr (Or.inr (of_decide_eq_true hk))
      · exact Or.inl hk
    · simp only [if_neg h]
      rw [alHas_alUpd, alHas_alUpd]
      intro hk
      rcases Bool.or_eq_true _ _ |>.mp hk with hk | hk
      · exact Or.inr (Or.inl (of_decide_eq_true hk))
      · rcases Bool.or_eq_true _ _ |>.mp hk with hk | hk
        · exact Or.inr (Or.inr (of_decide_eq_true hk))
        · exact Or.inl hk

/-- **C1** (witness): the key bound of `directlyConnected` discharged on a
concrete graph. -/
theorem c1_queries_preserve_adjacency_witness :
    alHas (Graph.empty : Graph ℕ).graph 1 = true ∨ (1 : ℕ) = 1 ∨ (1 : ℕ) = 2 :=
  (c1_queries_preserve_adjacency (Graph.empty : Graph ℕ) 1 2).2.2.2.2.2 1 (by decide)

/-- **C2** (counterexample): `moveNode` on a target that is not a key of the
adjacency map raises `KeyError` (`self.graph.pop(targNode)` has no default);
on the empty graph no input degrades to a no-op. -/
theorem c2_counterexample :
    moveNode (Graph.empty : Graph Node) ((0 : ℚ), (0 : ℚ)) ((1 : ℚ), (1 : ℚ)) = none := by
  rfl

/-- **C2** (amended): restricted to coordinate-pair inputs, every operation
of the public surface is total except `moveNode`, which raises `KeyError`
exactly when its target is not a key of the adjacency map (and succeeds
otherwise). -/
theorem c2_moveNode_raises_iff_absent (g : Graph Node) (t off : Node) :
    (moveNode g t off).isSome = alHas g.graph t := by
  unfold moveNode
  by_cases h : alHas g.graph t = true <;> simp [h]

/-- **C3** (code bug): `self.newnodes` is never cleared between
`dissolveNode` calls.  Build the path `0 - 1 - 2`, dissolve `1` (adding the
legitimate edge `0 - 2`, with `newnodes = {0, 2}`), delete that edge, then
dissolve node `5`, which has zero neighbours: the stale `newnodes` re-creates
edge `0 - 2`, though the claim (and spec) say a node with 0 neighbours
dissolves with no new edge created anywhere. -/
theorem c3_dissolve_stale_newnodes :
    alGet (deleteEdge (dissolveNode (addEdge (addEdge (Graph.empty : Graph ℕ) 0 1) 1 2) 1)
        0 2).graph 5 = [] ∧
    (edgeExists (deleteEdge (dissolveNode (addEdge (addEdge (Graph.empty : Graph ℕ) 0 1) 1 2) 1)
        0 2) 0 2).1 = false ∧
    (edgeExists (dissolveNode (deleteEdge (dissolveNode (addEdge (addEdge
        (Graph.empty : Graph ℕ) 0 1) 1 2) 1) 0 2) 5) 0 2).1 = true := by
  decide

/-- **C4** (counterexample): `deleteEdge` on a non-existent edge does not
always leave the graph unchanged: on the empty graph it creates both
endpoints as keys (changing the key set and `vertIndices`), and on an
asymmetric state it removes the reverse direction. -/
theorem c4_counterexample :
    ((1 : ℕ) ∉ alGet (Graph.empty : Graph ℕ).graph 0 ∧
      (deleteEdge (Graph.empty : Graph ℕ) 0 1).graph ≠ (Graph.empty : Graph ℕ).graph ∧
      vertIndices (deleteEdge (Graph.empty : Graph ℕ) 0 1) ≠ vertIndices (Graph.empty : Graph ℕ)) ∧
    ((1 : ℕ) ∉ alGet gAsym.graph 0 ∧
      (deleteEdge gAsym 0 1).graph ≠ gAsym.graph) := by
  decide

/-- **C4** (amended): if both endpoints are already keys of the adjacency
map and the edge is stored in neither direction, `deleteEdge` leaves the
graph (hence `connectedComps` and `vertIndices`) entirely unchanged. -/
theorem c4_deleteEdge_missing_noop (g : Graph α) (a b : α)
    (ha : alHas g.graph a = true) (hb : alHas g.graph b = true)
    (hab : b ∉ alGet g.graph a) (hba : a ∉ alGet g.graph b) :
    deleteEdge g a b = g ∧
    connectedComps (deleteEdge g a b) = connectedComps g ∧
    vertIndices (deleteEdge g a b) = vertIndices g := by
  have h1 : alUpd g.graph a (fun s => sDiscard s b) = g.graph :=
    alUpd_eq_self _ _ _ ha (sDiscard_eq_self _ _ hab)
  have h1b : alUpd g.graph b (fun s => sDiscard s a) = g.graph :=
    alUpd_eq_self _ _ _ hb (sDiscard_eq_self _ _ hba)
  have h2 : deleteEdge g a b = g := by
    show ({ g with graph := alUpd (alUpd g.graph a _) b _ } : Graph α) = g
    rw [h1, h1b]
  exact ⟨h2, by rw [h2], by rw [h2]⟩

/-- **C4** (witness): the no-op case on a concrete graph with both keys
present and no stored edge between them. -/
theorem c4_deleteEdge_missing_noop_witness :
    deleteEdge (⟨[(0, [1]), (1, [0]), (2, [])], []⟩ : Graph ℕ) 0 2 =
      (⟨[(0, [1]), (1, [0]), (2, [])], []⟩ : Graph ℕ) :=
  (c4_deleteEdge_missing_noop (⟨[(0, [1]), (1, [0]), (2, [])], []⟩ : Graph ℕ) 0 2
    (by decide) (by decide) (by decide) (by decide)).1

end ClaimsA

section FoldFrom

variable {α : Type} [DecidableEq α]

theorem mem_alGet_foldl_addEdge_from (ns : List α) (c : α) (h : Graph α) (x m : α) :
    x ∈ alGet ((ns.foldl (fun h2 n => addEdge h2 c n) h)).graph m ↔
      x ∈ alGet h.graph m ∨ ∃ n ∈ ns, (m = c ∧ x = n) ∨ (m = n ∧ x = c) := by
  induction ns generalizing h with
  | nil => simp
  | cons n ns ih =>
      rw [List.foldl_cons, ih, mem_alGet_addEdge]
      constructor
      · rintro ((h1 | h1 | h1) | ⟨q, hq, h1⟩)
        · exact Or.inl h1
        · exact Or.inr ⟨n, List.mem_cons_self _ _, Or.inl h1⟩
        · exact Or.inr ⟨n, List.mem_cons_self _ _, Or.inr h1⟩
        · exact Or.inr ⟨q, List.mem_cons_of_mem _ hq, h1⟩
      · rintro (h1 | ⟨q, hq, h1⟩)
        · exact Or.inl (Or.inl h1)
        · rcases List.mem_cons.mp hq with rfl | hq
          · rcases h1 with h1 | h1
            · exact Or.inl (Or.inr (Or.inl h1))
            · exact Or.inl (Or.inr (Or.inr h1))
          · exact Or.inr ⟨q, hq, h1⟩

theorem foldl_addEdge_from_newnodes (ns : List α) (c : α) (h : Graph α) :
    ((ns.foldl (fun h2 n => addEdge h2 c n) h)).newnodes = h.newnodes := by
  induction ns generalizing h with
  | nil => rfl
  | cons n ns ih => rw [List.foldl_cons, ih, addEdge_newnodes]

theorem wfKeys_foldl_addEdge_from (ns : List α) (c : α) (h : Graph α) (hw : WFKeys h) :
    WFKeys ((ns.foldl (fun h2 n => addEdge h2 c n) h)) := by
  induction ns generalizing h with
  | nil => exact hw
  | cons n ns ih => exact ih _ (wfKeys_addEdge _ _ _ hw)

theorem foldl_sAdd_cond_nodup (l : List (α × List α)) (node : α) :
    ∀ acc : List α, acc.Nodup →
      (l.foldl (fun acc kv => if node ∈ kv.2 then sAdd acc kv.1 else acc) acc).Nodup := by
  induction l with
  | nil => intro acc h; exact h
  | cons kv rest ih =>
      intro acc h
      rw [List.foldl_cons]
      by_cases hn : node ∈ kv.2
      · simp only [if_pos hn]
        exact ih _ (sAdd_nodup _ _ h)
      · simp only [if_neg hn]
        exact ih _ h

theorem combinations2_ne_of_nodup (l : List α) (h : l.Nodup) :
    ∀ p ∈ combinations2 l, p.1 ≠ p.2 := by
  induction l with
  | nil => intro p hp; simp [combinations2] at hp
  | cons x xs ih =>
      intro p hp
      rw [List.nodup_cons] at h
      simp only [combinations2, List.mem_append] at hp
      rcases hp with hp | hp
      · rcases List.mem_map.mp hp with ⟨y, hy, rfl⟩
        intro hc
        have hc2 : x = y := hc
        exact h.1 (by rw [hc2]; exact hy)
      · exact ih h.2 p hp

end FoldFrom

section DissolveMoveLemmas

variable {α : Type} [DecidableEq α]

/-- The graph part of `dissolveNode` before the clique edges are added. -/
theorem mem_alGet_dissolveBase (g : Graph α) (node x m : α) :
    x ∈ alGet ((alUpd g.graph node (fun _ => [])).map
        (fun kv => (kv.1, sDiscard kv.2 node))) m ↔
      x ∈ alGet g.graph m ∧ x ≠ node ∧ m ≠ node := by
  rw [alGet_map_discard, alGet_alUpd]
  by_cases hm : m = node
  · simp [hm, sDiscard]
  · simp only [if_neg hm, mem_sDiscard]
    tauto

/-- The `newnodes` set computed by `dissolveNode`. -/
theorem dissolveNode_eq (g : Graph α) (node : α) :
    dissolveNode g node =
      (combinations2
          ((alUpd g.graph node (fun _ => [])).foldl
            (fun acc kv => if node ∈ kv.2 then sAdd acc kv.1 else acc) g.newnodes)).foldl
        (fun h p => addEdge h p.1 p.2)
        ⟨(alUpd g.graph node (fun _ => [])).map (fun kv => (kv.1, sDiscard kv.2 node)),
          (alUpd g.graph node (fun _ => [])).foldl
            (fun acc kv => if node ∈ kv.2 then sAdd acc kv.1 else acc) g.newnodes⟩ := rfl

theorem wfKeys_dissolveNode (g : Graph α) (node : α) (h : WFKeys g) :
    WFKeys (dissolveNode g node) := by
  rw [dissolveNode_eq]
  apply wfKeys_foldl_addEdge
  show (alKeys _).Nodup
  rw [alKeys_map_discard]
  exact wfKeys_alUpd _ _ _ h

theorem newnodes_dissolveNode_nodup (g : Graph α) (node : α)
    (h : g.newnodes.Nodup) : (dissolveNode g node).newnodes.Nodup := by
  rw [dissolveNode_eq, foldl_addEdge_newnodes]
  exact foldl_sAdd_cond_nodup _ _ _ h

end DissolveMoveLemmas

section NoLoopPreserve

variable {α : Type} [DecidableEq α]

theorem noLoop_addEdge (g : Graph α) (a b : α) (h : NoLoop g) (hab : a ≠ b) :
    NoLoop (addEdge g a b) := by
  intro m hm
  rcases (mem_alGet_addEdge g a b m m).mp hm with h1 | ⟨h1, h2⟩ | ⟨h1, h2⟩
  · exact h m h1
  · exact hab (h1.symm.trans h2)
  · exact hab (h2.symm.trans h1)

theorem noLoop_deleteEdge (g : Graph α) (a b : α) (h : NoLoop g) :
    NoLoop (deleteEdge g a b) := by
  intro m hm
  exact h m ((mem_alGet_deleteEdge g a b m m).mp hm).1

theorem noLoop_deleteNode (g : Graph α) (n : α) (hk : WFKeys g) (h : NoLoop g) :
    NoLoop (deleteNode g n) := by
  intro m hm
  exact h m ((mem_alGet_deleteNode g n m m hk).mp hm).1

theorem noLoop_foldl_addEdge (ps : List (α × α)) (h : Graph α)
    (hps : ∀ p ∈ ps, p.1 ≠ p.2) (hn : NoLoop h) :
    NoLoop ((ps.foldl (fun h2 p => addEdge h2 p.1 p.2) h)) := by
  intro m hm
  rcases (mem_alGet_foldl_addEdge ps h m m).mp hm with h1 | ⟨p, hp, h1⟩
  · exact hn m h1
  · rcases h1 with ⟨h1, h2⟩ | ⟨h1, h2⟩
    · exact hps p hp (h1.symm.trans h2)
    · exact hps p hp (h2.symm.trans h1)

theorem noLoop_dissolveNode (g : Graph α) (node : α)
    (hnn : g.newnodes.Nodup) (h : NoLoop g) : NoLoop (dissolveNode g node) := by
  rw [dissolveNode_eq]
  apply noLoop_foldl_addEdge
  · exact combinations2_ne_of_nodup _ (foldl_sAdd_cond_nodup _ _ _ hnn)
  · intro m hm
    exact h m ((mem_alGet_dissolveBase g node m m).mp hm).1

end NoLoopPreserve

section SymmPreserve

variable {α : Type} [DecidableEq α]

theorem symm_addEdge (g : Graph α) (a b : α) (h : Symm g) : Symm (addEdge g a b) := by
  intro m x hx
  rcases (mem_alGet_addEdge g a b x m).mp hx with h1 | ⟨h1, h2⟩ | ⟨h1, h2⟩
  · exact (mem_alGet_addEdge g a b m x).mpr (Or.inl (h m x h1))
  · exact (mem_alGet_addEdge g a b m x).mpr (Or.inr (Or.inr ⟨h2, h1⟩))
  · exact (mem_alGet_addEdge g a b m x).mpr (Or.inr (Or.inl ⟨h2, h1⟩))

theorem symm_deleteEdge (g : Graph α) (a b : α) (h : Symm g) : Symm (deleteEdge g a b) := by
  intro m x hx
  rcases (mem_alGet_deleteEdge g a b x m).mp hx with ⟨h1, h2, h3⟩
  refine (mem_alGet_deleteEdge g a b m x).mpr ⟨h m x h1, ?_, ?_⟩
  · rintro ⟨rfl, rfl⟩; exact h3 ⟨rfl, rfl⟩
  · rintro ⟨rfl, rfl⟩; exact h2 ⟨rfl, rfl⟩

theorem symm_deleteNode (g : Graph α) (n : α) (hk : WFKeys g) (h : Symm g) :
    Symm (deleteNode g n) := by
  intro m x hx
  rcases (mem_alGet_deleteNode g n x m hk).mp hx with ⟨h1, h2, h3⟩
  exact (mem_alGet_deleteNode g n m x hk).mpr ⟨h m x h1, h3, h2⟩

theorem symm_foldl_addEdge (ps : List (α × α)) (h : Graph α) (hs : Symm h) :
    Symm ((ps.foldl (fun h2 p => addEdge h2 p.1 p.2) h)) := by
  intro m x hx
  rcases (mem_alGet_foldl_addEdge ps h x m).mp hx with h1 | ⟨p, hp, h1⟩
  · exact (mem_alGet_foldl_addEdge ps h m x).mpr (Or.inl (hs m x h1))
  · refine (mem_alGet_foldl_addEdge ps h m x).mpr (Or.inr ⟨p, hp, ?_⟩)
    tauto

theorem symm_foldl_addEdge_from (ns : List α) (c : α) (h : Graph α) (hs : Symm h) :
    Symm ((ns.foldl (fun h2 n => addEdge h2 c n) h)) := by
  intro m x hx
  rcases (mem_alGet_foldl_addEdge_from ns c h x m).mp hx with h1 | ⟨q, hq, h1⟩
  · exact (mem_alGet_foldl_addEdge_from ns c h m x).mpr (Or.inl (hs m x h1))
  · refine (mem_alGet_foldl_addEdge_from ns c h m x).mpr (Or.inr ⟨q, hq, ?_⟩)
    tauto

theorem symm_dissolveNode (g : Graph α) (node : α) (h : Symm g) :
    Symm (dissolveNode g node) := by
  rw [dissolveNode_eq]
  apply symm_foldl_addEdge
  intro m x hx
  rcases (mem_alGet_dissolveBase g node x m).mp hx with ⟨h1, h2, h3⟩
  exact (mem_alGet_dissolveBase g node m x).mpr ⟨h m x h1, h3, h2⟩

theorem symm_splitEdge (g : Graph Node) (a b : Node) (h : Symm g) :
    Symm (splitEdge g a b) :=
  symm_addEdge _ _ _ (symm_addEdge _ _ _ (symm_deleteEdge _ _ _ h))

end SymmPreserve

section MoveSplitLemmas

theorem mid_eq_left_iff (a b : Node) :
    ((((a.1 + b.1) / 2, (a.2 + b.2) / 2)) : Node) = a ↔ a = b := by
  constructor
  · intro h
    have h1 : (a.1 + b.1) / 2 = a.1 := congrArg Prod.fst h
    have h2 : (a.2 + b.2) / 2 = a.2 := congrArg Prod.snd h
    have e1 : a.1 = b.1 := by linarith
    have e2 : a.2 = b.2 := by linarith
    exact Prod.ext e1 e2
  · intro h
    rw [← h]
    exact Prod.ext (by ring) (by ring)

theorem mid_eq_right_iff (a b : Node) :
    ((((a.1 + b.1) / 2, (a.2 + b.2) / 2)) : Node) = b ↔ a = b := by
  constructor
  · intro h
    have h1 : (a.1 + b.1) / 2 = b.1 := congrArg Prod.fst h
    have h2 : (a.2 + b.2) / 2 = b.2 := congrArg Prod.snd h
    have e1 : a.1 = b.1 := by linarith
    have e2 : a.2 = b.2 := by linarith
    exact Prod.ext e1 e2
  · intro h
    rw [h]
    exact Prod.ext (by ring) (by ring)

theorem nodeAdd_eq_self_iff (t off : Node) :
    nodeAdd t off = t ↔ off = ((0 : ℚ), (0 : ℚ)) := by
  constructor
  · intro h
    have h1 : t.1 + off.1 = t.1 := congrArg Prod.fst h
    have h2 : t.2 + off.2 = t.2 := congrArg Prod.snd h
    have e1 : off.1 = (0 : ℚ) := by linarith
    have e2 : off.2 = (0 : ℚ) := by linarith
    exact Prod.ext e1 e2
  · intro h
    rw [h]
    exact Prod.ext (by show t.1 + 0 = t.1; ring) (by show t.2 + 0 = t.2; ring)

theorem noLoop_splitEdge (g : Graph Node) (a b : Node) (h : NoLoop g) (hab : a ≠ b) :
    NoLoop (splitEdge g a b) := by
  unfold splitEdge
  exact noLoop_addEdge _ _ _
    (noLoop_addEdge _ _ _ (noLoop_deleteEdge _ _ _ h)
      (fun hc => hab ((mid_eq_left_iff a b).mp hc.symm)))
    (fun hc => hab ((mid_eq_right_iff a b).mp hc))

theorem wfKeys_splitEdge (g : Graph Node) (a b : Node) (h : WFKeys g) :
    WFKeys (splitEdge g a b) :=
  wfKeys_addEdge _ _ _ (wfKeys_addEdge _ _ _ (wfKeys_deleteEdge _ _ _ h))

theorem splitEdge_newnodes (g : Graph Node) (a b : Node) :
    (splitEdge g a b).newnodes = g.newnodes := rfl

theorem moveNode_eq_of_has (g : Graph Node) (t off : Node) (h : alHas g.graph t = true) :
    moveNode g t off =
      some ((alGet g.graph t).foldl (fun h2 n => addEdge h2 (nodeAdd t off) n)
        (deleteNode ⟨alDel g.graph t, g.newnodes⟩ t)) := by
  simp [moveNode, h]

theorem wfKeys_moveNode (g g' : Graph Node) (t off : Node) (hk : WFKeys g)
    (hmv : moveNode g t off = some g') : WFKeys g' := by
  cases hht : alHas g.graph t with
  | false => rw [moveNode, hht] at hmv; simp at hmv
  | true =>
      rw [moveNode_eq_of_has g t off hht] at hmv
      rcases Option.some.injEq _ _ ▸ hmv with rfl
      exact wfKeys_foldl_addEdge_from _ _ _
        (wfKeys_deleteNode (⟨alDel g.graph t, g.newnodes⟩ : Graph Node) t
          (wfKeys_alDel _ _ hk))

theorem moveNode_newnodes (g g' : Graph Node) (t off : Node)
    (hmv : moveNode g t off = some g') : g'.newnodes = g.newnodes := by
  cases hht : alHas g.graph t with
  | false => rw [moveNode, hht] at hmv; simp at hmv
  | true =>
      rw [moveNode_eq_of_has g t off hht] at hmv
      rcases Option.some.injEq _ _ ▸ hmv with rfl
      rw [foldl_addEdge_from_newnodes]
      rfl

theorem noLoop_moveNode (g g' : Graph Node) (t off : Node)
    (hk : WFKeys g) (h : NoLoop g)
    (guard : nodeAdd t off ∉ alGet g.graph t)
    (hmv : moveNode g t off = some g') : NoLoop g' := by
  cases hht : alHas g.graph t with
  | false => rw [moveNode, hht] at hmv; simp at hmv
  | true =>
      rw [moveNode_eq_of_has g t off hht] at hmv
      rcases Option.some.injEq _ _ ▸ hmv with rfl
      have hk1 : WFKeys (⟨alDel g.graph t, g.newnodes⟩ : Graph Node) :=
        wfKeys_alDel _ _ hk
      intro m hm
      rcases (mem_alGet_foldl_addEdge_from _ _ _ m m).mp hm with h1 | ⟨q, hq, h1⟩
      · rcases (mem_alGet_deleteNode _ t m m hk1).mp h1 with ⟨h2, _, h4⟩
        have : alGet (alDel g.graph t) m = alGet g.graph m := alGet_alDel_ne _ _ _ h4
        exact h m (this ▸ h2)
      · rcases h1 with ⟨h1, h2⟩ | ⟨h1, h2⟩
        · exact guard ((h1.symm.trans h2) ▸ hq)
        · exact guard ((h2.symm.trans h1) ▸ hq)

theorem symm_moveNode (g g' : Graph Node) (t off : Node)
    (hk : WFKeys g) (h : Symm g)
    (hmv : moveNode g t off = some g') : Symm g' := by
  cases hht : alHas g.graph t with
  | false => rw [moveNode, hht] at hmv; simp at hmv
  | true =>
      rw [moveNode_eq_of_has g t off hht] at hmv
      rcases Option.some.injEq _ _ ▸ hmv with rfl
      have hk1 : WFKeys (⟨alDel g.graph t, g.newnodes⟩ : Graph Node) :=
        wfKeys_alDel _ _ hk
      apply symm_foldl_addEdge_from
      intro m x hx
      rcases (mem_alGet_deleteNode _ t x m hk1).mp hx with ⟨h1, h2, h3⟩
      have e1 : alGet (alDel g.graph t) m = alGet g.graph m := alGet_alDel_ne _ _ _ h3
      have hxg : x ∈ alGet g.graph m := e1 ▸ h1
      have hmg : m ∈ alGet g.graph x := h m x hxg
      refine (mem_alGet_deleteNode _ t m x hk1).mpr ⟨?_, h3, h2⟩
      have e2 : alGet (alDel g.graph t) x = alGet g.graph x := alGet_alDel_ne _ _ _ h2
      exact e2 ▸ hmg

end MoveSplitLemmas

section RunInvariants

/-- Invariant for the no-self-loop claim: distinct dict keys, a duplicate-free
`newnodes` set, and no stored self-loop. -/
def Inv5 (g : Graph Node) : Prop := WFKeys g ∧ g.newnodes.Nodup ∧ NoLoop g

theorem inv5_applyOp (g g' : Graph Node) (op : Op)
    (h : Inv5 g) (hok : okOp g op = true) (happ : applyOp g op = some g') : Inv5 g' := by
  obtain ⟨hk, hnn, hnl⟩ := h
  cases op with
  | add a b =>
      rcases Option.some.injEq _ _ ▸ happ with rfl
      refine ⟨wfKeys_addEdge _ _ _ hk, ?_, noLoop_addEdge _ _ _ hnl (of_decide_eq_true hok)⟩
      rw [addEdge_newnodes]; exact hnn
  | del a b =>
      rcases Option.some.injEq _ _ ▸ happ with rfl
      refine ⟨wfKeys_deleteEdge _ _ _ hk, ?_, noLoop_deleteEdge _ _ _ hnl⟩
      rw [deleteEdge_newnodes]; exact hnn
  | delNode n =>
      rcases Option.some.injEq _ _ ▸ happ with rfl
      refine ⟨wfKeys_deleteNode _ _ hk, ?_, noLoop_deleteNode _ _ hk hnl⟩
      rw [deleteNode_newnodes]; exact hnn
  | dissolve n =>
      rcases Option.some.injEq _ _ ▸ happ with rfl
      exact ⟨wfKeys_dissolveNode _ _ hk, newnodes_dissolveNode_nodup _ _ hnn,
        noLoop_dissolveNode _ _ hnn hnl⟩
  | split a b =>
      rcases Option.some.injEq _ _ ▸ happ with rfl
      refine ⟨wfKeys_splitEdge _ _ _ hk, ?_, noLoop_splitEdge _ _ _ hnl (of_decide_eq_true hok)⟩
      rw [splitEdge_newnodes]; exact hnn
  | move t off =>
      refine ⟨wfKeys_moveNode _ _ _ _ hk happ, ?_,
        noLoop_moveNode _ _ _ _ hk hnl (of_decide_eq_true hok) happ⟩
      rw [moveNode_newnodes _ _ _ _ happ]; exact hnn

theorem inv5_runOps : ∀ (ops : List Op) (g g' : Graph Node),
    Inv5 g → okRun g ops = true → runOps g ops = some g' → Inv5 g' := by
  intro ops
  induction ops with
  | nil =>
      intro g g' h _ hrun
      rcases Option.some.injEq _ _ ▸ hrun with rfl
      exact h
  | cons op ops ih =>
      intro g g' h hok hrun
      rw [okRun] at hok
      rw [runOps] at hrun
      cases happ : applyOp g op with
      | none => rw [happ] at hrun; simp at hrun
      | some g1 =>
          rw [happ] at hrun hok
          rw [Bool.and_eq_true] at hok
          exact ih g1 g' (inv5_applyOp g g1 op h hok.1 happ) hok.2 hrun

theorem inv5_empty : Inv5 Graph.empty := by
  refine ⟨List.nodup_nil, List.nodup_nil, fun a ha => ?_⟩
  simp [Graph.empty, alGet] at ha

/-- Invariant for the symmetry claim: distinct dict keys and symmetric storage. -/
def Inv7 (g : Graph Node) : Prop := WFKeys g ∧ Symm g

theorem inv7_applyOp (g g' : Graph Node) (op : Op)
    (h : Inv7 g) (happ : applyOp g op = some g') : Inv7 g' := by
  obtain ⟨hk, hs⟩ := h
  cases op with
  | add a b =>
      rcases Option.some.injEq _ _ ▸ happ with rfl
      exact ⟨wfKeys_addEdge _ _ _ hk, symm_addEdge _ _ _ hs⟩
  | del a b =>
      rcases Option.some.injEq _ _ ▸ happ with rfl
      exact ⟨wfKeys_deleteEdge _ _ _ hk, symm_deleteEdge _ _ _ hs⟩
  | delNode n =>
      rcases Option.some.injEq _ _ ▸ happ with rfl
      exact ⟨wfKeys_deleteNode _ _ hk, symm_deleteNode _ _ hk hs⟩
  | dissolve n =>
      rcases Option.some.injEq _ _ ▸ happ with rfl
      exact ⟨wfKeys_dissolveNode _ _ hk, symm_dissolveNode _ _ hs⟩
  | split a b =>
      rcases Option.some.injEq _ _ ▸ happ with rfl
      exact ⟨wfKeys_splitEdge _ _ _ hk, symm_splitEdge _ _ _ hs⟩
  | move t off =>
      exact ⟨wfKeys_moveNode _ _ _ _ hk happ, symm_moveNode _ _ _ _ hk hs happ⟩

theorem inv7_runOps : ∀ (ops : List Op) (g g' : Graph Node),
    Inv7 g → runOps g ops = some g' → Inv7 g' := by
  intro ops
  induction ops with
  | nil =>
      intro g g' h hrun
      rcases Option.some.injEq _ _ ▸ hrun with rfl
      exact h
  | cons op ops ih =>
      intro g g' h hrun
      rw [runOps] at hrun
      cases happ : applyOp g op with
      | none => rw [happ] at hrun; simp at hrun
      | some g1 =>
          rw [happ] at hrun
          exact ih g1 g' (inv7_applyOp g g1 op h happ) hrun

theorem inv7_empty : Inv7 Graph.empty := by
  refine ⟨List.nodup_nil, fun a b hb => ?_⟩
  simp [Graph.empty, alGet] at hb

end RunInvariants

section ClaimsBC

/-- **C5** (counterexample): `addEdge(a, a)` immediately stores a self-loop,
so a sequence of public operations applied to the empty graph can make
`edgeExists(a, a)` true. -/
theorem c5_counterexample :
    runOps Graph.empty [Op.add ((0 : ℚ), (0 : ℚ)) ((0 : ℚ), (0 : ℚ))] =
      some (addEdge Graph.empty ((0 : ℚ), (0 : ℚ)) ((0 : ℚ), (0 : ℚ))) ∧
    (edgeExists (addEdge (Graph.empty : Graph Node) ((0 : ℚ), (0 : ℚ)) ((0 : ℚ), (0 : ℚ)))
      ((0 : ℚ), (0 : ℚ)) ((0 : ℚ), (0 : ℚ))).1 = true := by
  constructor
  · rfl
  · decide

/-- **C5** (amended): no self-loop is ever created by a sequence of public
operations from the empty graph, provided `addEdge` and `splitEdge` are never
called with two equal endpoints and `moveNode` never lands its target on one
of the target's former neighbours (`okRun`); each of those three excluded
calls does create a self-loop. -/
theorem c5_noSelfLoop (ops : List Op) (g2 : Graph Node)
    (hok : okRun Graph.empty ops = true)
    (hrun : runOps Graph.empty ops = some g2) :
    ∀ a : Node, (edgeExists g2 a a).1 = false := by
  have hinv : Inv5 g2 := inv5_runOps ops Graph.empty g2 inv5_empty hok hrun
  intro a
  cases hx : (edgeExists g2 a a).1 with
  | false => rfl
  | true => exact absurd ((edgeExists_fst_true_iff g2 a a).mp hx) (hinv.2.2 a)

/-- Concrete run used to witness the no-self-loop theorem. -/
def c5ops : List Op :=
  [Op.add ((0 : ℚ), (0 : ℚ)) ((1 : ℚ), (1 : ℚ)),
   Op.add ((1 : ℚ), (1 : ℚ)) ((2 : ℚ), (2 : ℚ)),
   Op.dissolve ((1 : ℚ), (1 : ℚ)),
   Op.del ((0 : ℚ), (0 : ℚ)) ((2 : ℚ), (2 : ℚ)),
   Op.delNode ((0 : ℚ), (0 : ℚ))]

/-- Result state of the witness run. -/
def c5res : Graph Node := (runOps Graph.empty c5ops).getD Graph.empty

/-- **C5** (witness): the guard and the run discharged on a concrete
operation sequence. -/
theorem c5_noSelfLoop_witness :
    okRun Graph.empty c5ops = true ∧
    (edgeExists c5res ((2 : ℚ), (2 : ℚ)) ((2 : ℚ), (2 : ℚ))).1 = false :=
  ⟨by decide, c5_noSelfLoop c5ops c5res (by decide) rfl ((2 : ℚ), (2 : ℚ))⟩

/-- **C7** (confirmed): after any sequence of `addEdge`, `deleteEdge`,
`dissolveNode`, `deleteNode`, `moveNode` applied to the empty graph,
`edgeExists(a, b)` and `edgeExists(b, a)` agree for all nodes: the adjacency
map stays symmetric (runs aborted by a `moveNode` `KeyError` produce no
state). -/
theorem c7_edgeExists_symm (ops : List Op) (g2 : Graph Node)
    (hsplit : ∀ a b : Node, Op.split a b ∉ ops)
    (hrun : runOps Graph.empty ops = some g2) :
    ∀ a b : Node, (edgeExists g2 a b).1 = (edgeExists g2 b a).1 := by
  have hinv : Inv7 g2 := inv7_runOps ops Graph.empty g2 inv7_empty hrun
  intro a b
  have h1 := edgeExists_fst_true_iff g2 a b
  have h2 := edgeExists_fst_true_iff g2 b a
  cases hx : (edgeExists g2 a b).1 with
  | true => exact (h2.mpr (hinv.2 a b (h1.mp hx))).symm
  | false =>
      cases hy : (edgeExists g2 b a).1 with
      | false => rfl
      | true => exact absurd (h1.mpr (hinv.2 b a (h2.mp hy))) (by simp [hx])

/-- Concrete run used to witness the symmetry theorem. -/
def c7ops : List Op :=
  [Op.add ((0 : ℚ), (0 : ℚ)) ((1 : ℚ), (1 : ℚ)),
   Op.add ((1 : ℚ), (1 : ℚ)) ((2 : ℚ), (2 : ℚ)),
   Op.dissolve ((1 : ℚ), (1 : ℚ)),
   Op.delNode ((0 : ℚ), (0 : ℚ)),
   Op.del ((0 : ℚ), (0 : ℚ)) ((2 : ℚ), (2 : ℚ))]

/-- Result state of the symmetry witness run. -/
def c7res : Graph Node := (runOps Graph.empty c7ops).getD Graph.empty

/-- **C7** (witness): the hypotheses discharged on a concrete run without
`splitEdge`. -/
theorem c7_edgeExists_symm_witness :
    (edgeExists c7res ((0 : ℚ), (0 : ℚ)) ((2 : ℚ), (2 : ℚ))).1 =
      (edgeExists c7res ((2 : ℚ), (2 : ℚ)) ((0 : ℚ), (0 : ℚ))).1 :=
  c7_edgeExists_symm c7ops c7res
    (by intro a b hmem; simp [c7ops] at hmem) rfl ((0 : ℚ), (0 : ℚ)) ((2 : ℚ), (2 : ℚ))

end ClaimsBC

section ClaimC6

/-- Input graph of the C6 counterexample: edges `(0,0)-(5,5)` and `(1,1)-(7,7)`. -/
def c6g : Graph Node :=
  addEdge (addEdge Graph.empty ((0 : ℚ), (0 : ℚ)) ((5 : ℚ), (5 : ℚ)))
    ((1 : ℚ), (1 : ℚ)) ((7 : ℚ), (7 : ℚ))

/-- State after `moveNode((0,0), (1,1))` on `c6g`. -/
def c6res : Graph Node :=
  ⟨[(((5 : ℚ), (5 : ℚ)), [((1 : ℚ), (1 : ℚ))]),
    (((1 : ℚ), (1 : ℚ)), [((7 : ℚ), (7 : ℚ)), ((5 : ℚ), (5 : ℚ))]),
    (((7 : ℚ), (7 : ℚ)), [((1 : ℚ), (1 : ℚ))])], []⟩

/-- **C6** (counterexample): moving `(0,0)` by `(1,1)` onto the *existing*
node `(1,1)` merges neighbour sets: the moved node ends up with neighbour
`(7,7)`, which was not a neighbour of `(0,0)`, so the new node does not have
exactly the old neighbour set. -/
theorem c6_counterexample :
    moveNode c6g ((0 : ℚ), (0 : ℚ)) ((1 : ℚ), (1 : ℚ)) = some c6res ∧
    alHas c6g.graph ((1 : ℚ), (1 : ℚ)) = true ∧
    ((7 : ℚ), (7 : ℚ)) ∈ alGet c6res.graph ((1 : ℚ), (1 : ℚ)) ∧
    ((7 : ℚ), (7 : ℚ)) ∉ alGet c6g.graph ((0 : ℚ), (0 : ℚ)) := by
  have hadd : nodeAdd ((0 : ℚ), (0 : ℚ)) ((1 : ℚ), (1 : ℚ)) = ((1 : ℚ), (1 : ℚ)) := by
    unfold nodeAdd
    norm_num
  refine ⟨?_, by decide, by decide, by decide⟩
  rw [moveNode_eq_of_has _ _ _ (by decide), hadd]
  decide

/-- **C6** (amended): for a key `t` with neighbour set `S` and no self-loop
at `t`, if `t + offset` is not a pre-existing different node (it is absent
from the key set, or equals `t` itself), then after `moveNode(t, offset)` the
node `t + offset` has exactly the neighbour set `S`, and `nodeExists(t)` is
false unless the offset is zero. -/
theorem c6_moveNode_spec (g g2 : Graph Node) (t off : Node)
    (hk : WFKeys g)
    (hhas : alHas g.graph t = true)
    (hself : t ∉ alGet g.graph t)
    (hcol : alHas g.graph (nodeAdd t off) = false ∨ nodeAdd t off = t)
    (hmv : moveNode g t off = some g2) :
    (∀ x, x ∈ alGet g2.graph (nodeAdd t off) ↔ x ∈ alGet g.graph t) ∧
    (off ≠ ((0 : ℚ), (0 : ℚ)) → (nodeExists g2 t).1 = false) := by
  rw [moveNode_eq_of_has _ _ _ hhas] at hmv
  rcases Option.some.injEq _ _ ▸ hmv with rfl
  have hk1 : WFKeys (⟨alDel g.graph t, g.newnodes⟩ : Graph Node) := wfKeys_alDel _ _ hk
  have hbase : alGet (deleteNode (⟨alDel g.graph t, g.newnodes⟩ : Graph Node) t).graph
      (nodeAdd t off) = [] := by
    rcases hcol with hcol | hcol
    · by_cases ht : nodeAdd t off = t
      · rw [ht, hhas] at hcol
        exact absurd hcol (by simp)
      · apply List.eq_nil_iff_forall_not_mem.mpr
        intro x hx
        rcases (mem_alGet_deleteNode _ t x (nodeAdd t off) hk1).mp hx with ⟨h1, _, _⟩
        rw [alGet_alDel_ne _ _ _ ht, alGet_eq_nil_of_not_has _ _ hcol] at h1
        exact absurd h1 (List.not_mem_nil x)
    · rw [hcol]
      exact alGet_deleteNode_self _ _ hk1
  constructor
  · intro x
    constructor
    · intro hx
      rcases (mem_alGet_foldl_addEdge_from _ _ _ x (nodeAdd t off)).mp hx with h1 | ⟨n, hn, h1⟩
      · rw [hbase] at h1
        exact absurd h1 (List.not_mem_nil x)
      · rcases h1 with ⟨_, h1⟩ | ⟨h1, h2⟩
        · rw [h1]; exact hn
        · rw [h2, h1]; exact hn
    · intro hx
      exact (mem_alGet_foldl_addEdge_from _ _ _ x (nodeAdd t off)).mpr
        (Or.inr ⟨x, hx, Or.inl ⟨rfl, rfl⟩⟩)
  · intro hoff
    have ht2 : nodeAdd t off ≠ t := fun hc => hoff ((nodeAdd_eq_self_iff t off).mp hc)
    rw [nodeExists_fst_false_iff]
    apply List.eq_nil_iff_forall_not_mem.mpr
    intro x hx
    rcases (mem_alGet_foldl_addEdge_from _ _ _ x t).mp hx with h1 | ⟨n, hn, h1⟩
    · rcases (mem_alGet_deleteNode _ t x t hk1).mp h1 with ⟨_, _, h3⟩
      exact h3 rfl
    · rcases h1 with ⟨h1, _⟩ | ⟨h1, _⟩
      · exact ht2 h1.symm
      · exact hself (by nth_rewrite 2 [h1]; exact hn)

/-- Input graph for the C6 witness: a single edge `(0,0)-(1,1)`. -/
def c6wg : Graph Node := addEdge Graph.empty ((0 : ℚ), (0 : ℚ)) ((1 : ℚ), (1 : ℚ))

/-- State after the witness move of `(0,0)` by `(5,5)`. -/
def c6wres : Graph Node :=
  ⟨[(((1 : ℚ), (1 : ℚ)), [((5 : ℚ), (5 : ℚ))]),
    (((5 : ℚ), (5 : ℚ)), [((1 : ℚ), (1 : ℚ))])], []⟩

/-- **C6** (witness): the amended specification applied to a concrete
collision-free move. -/
theorem c6_moveNode_spec_witness :
    (nodeExists c6wres ((0 : ℚ), (0 : ℚ))).1 = false := by
  have hadd : nodeAdd ((0 : ℚ), (0 : ℚ)) ((5 : ℚ), (5 : ℚ)) = ((5 : ℚ), (5 : ℚ)) := by
    unfold nodeAdd
    norm_num
  have hmv : moveNode c6wg ((0 : ℚ), (0 : ℚ)) ((5 : ℚ), (5 : ℚ)) = some c6wres := by
    rw [moveNode_eq_of_has _ _ _ (by decide), hadd]
    decide
  exact (c6_moveNode_spec c6wg c6wres _ _ (by unfold WFKeys; decide) (by decide) (by decide)
    (Or.inl (by rw [hadd]; decide)) hmv).2 (by decide)

end ClaimC6

section Reachability

variable {α : Type} [DecidableEq α]

/-- Reachability along stored adjacency, through nodes outside `vis`:
`ReachAvoid l vis a x` holds when a path `a = x0, …, xk = x` exists with
every expanded node `xi` (`i < k`) not in `vis` and `x(i+1) ∈ alGet l xi`. -/
inductive ReachAvoid (l : List (α × List α)) (vis : List α) : α → α → Prop
  | refl (a : α) : ReachAvoid l vis a a
  | tail {a b c : α} : ReachAvoid l vis a b → b ∉ vis → c ∈ alGet l b →
      ReachAvoid l vis a c

theorem reachAvoid_mono (l : List (α × List α)) (vis vis' : List α)
    (hsub : ∀ x ∈ vis, x ∈ vis') {a x : α} (h : ReachAvoid l vis' a x) :
    ReachAvoid l vis a x := by
  induction h with
  | refl => exact ReachAvoid.refl _
  | tail h1 h2 h3 ih => exact ReachAvoid.tail ih (fun hc => h2 (hsub _ hc)) h3

theorem reachAvoid_head (l : List (α × List α)) (vis : List α) {a b x : α}
    (ha : a ∉ vis) (hb : b ∈ alGet l a) (h : ReachAvoid l vis b x) :
    ReachAvoid l vis a x := by
  induction h with
  | refl => exact ReachAvoid.tail (ReachAvoid.refl a) ha hb
  | tail h1 h2 h3 ih => exact ReachAvoid.tail ih h2 h3

theorem reachAvoid_exists_pred (l : List (α × List α)) (vis : List α) {a x : α}
    (h : ReachAvoid l vis a x) (hne : a ≠ x) : ∃ y, x ∈ alGet l y := by
  induction h with
  | refl => exact absurd rfl hne
  | tail h1 h2 h3 _ => exact ⟨_, h3⟩

theorem mem_nodesOf_key (l : List (α × List α)) (n : α) (h : alGet l n ≠ []) :
    n ∈ nodesOf l := by
  have hmem := mem_entry_of_alGet l n h
  exact List.mem_flatMap.mpr ⟨(n, alGet l n), hmem, List.mem_cons_self _ _⟩

theorem mem_nodesOf_adj (l : List (α × List α)) (n x : α) (hx : x ∈ alGet l n) :
    x ∈ nodesOf l := by
  have hne : alGet l n ≠ [] := by
    intro hc
    rw [hc] at hx
    exact absurd hx (List.not_mem_nil x)
  have hmem := mem_entry_of_alGet l n hne
  exact List.mem_flatMap.mpr ⟨(n, alGet l n), hmem, List.mem_cons_of_mem _ hx⟩

/-- Count of stored node occurrences not yet visited: the termination measure
of the recursive traversal. -/
def measR (l : List (α × List α)) (vis : List α) : ℕ :=
  ((nodesOf l).toFinset.filter (fun x => x ∉ vis)).card

theorem measR_mono (l : List (α × List α)) (vis vis' : List α)
    (h : ∀ x ∈ vis, x ∈ vis') : measR l vis' ≤ measR l vis := by
  apply Finset.card_le_card
  intro x hx
  rw [Finset.mem_filter] at hx ⊢
  exact ⟨hx.1, fun hc => hx.2 (h x hc)⟩

theorem measR_lt (l : List (α × List α)) (vis : List α) (n : α)
    (hn1 : n ∈ nodesOf l) (hn2 : n ∉ vis) :
    measR l (vis ++ [n]) < measR l vis := by
  apply Finset.card_lt_card
  rw [Finset.ssubset_iff_of_subset]
  · refine ⟨n, ?_, ?_⟩
    · rw [Finset.mem_filter]
      exact ⟨List.mem_toFinset.mpr hn1, hn2⟩
    · rw [Finset.mem_filter]
      rintro ⟨_, hc⟩
      exact hc (List.mem_append.mpr (Or.inr (List.mem_singleton.mpr rfl)))
  · intro x hx
    rw [Finset.mem_filter] at hx ⊢
    exact ⟨hx.1, fun hc => hx.2 (List.mem_append.mpr (Or.inl hc))⟩

theorem measR_le (l : List (α × List α)) (vis : List α) :
    measR l vis ≤ (nodesOf l).length :=
  le_trans (Finset.card_le_card (Finset.filter_subset _ _)) (List.toFinset_card_le _)

end Reachability

section DfsRecSpec

variable {α : Type} [DecidableEq α]

theorem dfsFold_cons_mem (l : List (α × List α)) (fuel : ℕ) (a : α) (L : List α)
    (c v : List α) (ha : a ∈ v) :
    List.foldl
        (fun cv adjnode => if adjnode ∈ cv.2 then cv else dfsRecAux l fuel adjnode cv.1 cv.2)
        (c, v) (a :: L) =
      List.foldl
        (fun cv adjnode => if adjnode ∈ cv.2 then cv else dfsRecAux l fuel adjnode cv.1 cv.2)
        (c, v) L := by
  rw [List.foldl_cons]
  congr 1
  simp [ha]

theorem dfsFold_cons_new (l : List (α × List α)) (fuel : ℕ) (a : α) (L : List α)
    (c v : List α) (ha : a ∉ v) :
    List.foldl
        (fun cv adjnode => if adjnode ∈ cv.2 then cv else dfsRecAux l fuel adjnode cv.1 cv.2)
        (c, v) (a :: L) =
      List.foldl
        (fun cv adjnode => if adjnode ∈ cv.2 then cv else dfsRecAux l fuel adjnode cv.1 cv.2)
        (dfsRecAux l fuel a c v) L := by
  rw [List.foldl_cons]
  congr 1
  simp [ha]

theorem dfsRecFold_spec (l : List (α × List α)) (fuel : ℕ)
    (ih : ∀ (vis2 : List α) (n2 : α) (comp2 : List α),
      measR l vis2 < fuel → n2 ∉ vis2 →
      ∃ d, dfsRecAux l fuel n2 comp2 vis2 = (comp2 ++ d, vis2 ++ d) ∧
        d.Nodup ∧ n2 ∈ d ∧ (∀ x ∈ d, x ∉ vis2) ∧
        (∀ x ∈ d, ReachAvoid l vis2 n2 x) ∧
        (∀ y ∈ d, ∀ z ∈ alGet l y, z ∈ vis2 ++ d))
    (vis : List α) (n : α) (hn : n ∉ vis) :
    ∀ (L : List α), (∀ a ∈ L, a ∈ alGet l n) →
    ∀ (d comp : List α),
      measR l (vis ++ n :: d) < fuel →
      (n :: d).Nodup →
      (∀ x ∈ n :: d, x ∉ vis) →
      (∀ x ∈ d, ReachAvoid l vis n x) →
      (∀ y ∈ d, ∀ z ∈ alGet l y, z ∈ vis ++ n :: d) →
      ∃ e, List.foldl
          (fun cv adjnode => if adjnode ∈ cv.2 then cv else dfsRecAux l fuel adjnode cv.1 cv.2)
          (comp ++ n :: d, vis ++ n :: d) L
        = (comp ++ n :: (d ++ e), vis ++ n :: (d ++ e)) ∧
        (n :: (d ++ e)).Nodup ∧
        (∀ x ∈ n :: (d ++ e), x ∉ vis) ∧
        (∀ x ∈ d ++ e, ReachAvoid l vis n x) ∧
        (∀ y ∈ d ++ e, ∀ z ∈ alGet l y, z ∈ vis ++ n :: (d ++ e)) ∧
        (∀ z ∈ L, z ∈ vis ++ n :: (d ++ e)) := by
  intro L
  induction L with
  | nil =>
      intro _ d comp _ hnd hnv hre hcl
      exact ⟨[], by simp, by simpa using hnd, by simpa using hnv,
        by simpa using hre, by simpa using hcl, by simp⟩
  | cons a L ihL =>
      intro hL d comp hm hnd hnv hre hcl
      by_cases ha : a ∈ vis ++ n :: d
      · rw [dfsFold_cons_mem l fuel a L _ _ ha]
        obtain ⟨e, heq, hnd2, hnv2, hre2, hcl2, hL2⟩ :=
          ihL (fun b hb => hL b (List.mem_cons_of_mem _ hb)) d comp hm hnd hnv hre hcl
        refine ⟨e, heq, hnd2, hnv2, hre2, hcl2, ?_⟩
        intro z hz
        rcases List.mem_cons.mp hz with rfl | hz
        · rcases List.mem_append.mp ha with h1 | h1
          · exact List.mem_append.mpr (Or.inl h1)
          · rcases List.mem_cons.mp h1 with rfl | h1
            · exact List.mem_append.mpr (Or.inr (List.mem_cons_self _ _))
            · exact List.mem_append.mpr
                (Or.inr (List.mem_cons_of_mem _ (List.mem_append.mpr (Or.inl h1))))
        · exact hL2 z hz
      · rw [dfsFold_cons_new l fuel a L _ _ ha]
        obtain ⟨di, heqi, hndi, hai, hnvi, hrei, hcli⟩ :=
          ih (vis ++ n :: d) a (comp ++ n :: d) hm ha
        rw [heqi]
        have hassocC : (comp ++ n :: d) ++ di = comp ++ n :: (d ++ di) := by
          rw [List.append_assoc, List.cons_append]
        have hassocV : (vis ++ n :: d) ++ di = vis ++ n :: (d ++ di) := by
          rw [List.append_assoc, List.cons_append]
        rw [hassocC, hassocV]
        have hsubv : ∀ x ∈ vis ++ n :: d, x ∈ vis ++ n :: (d ++ di) := by
          intro x hx
          rcases List.mem_append.mp hx with h1 | h1
          · exact List.mem_append.mpr (Or.inl h1)
          · rcases List.mem_cons.mp h1 with rfl | h1
            · exact List.mem_append.mpr (Or.inr (List.mem_cons_self _ _))
            · exact List.mem_append.mpr
                (Or.inr (List.mem_cons_of_mem _ (List.mem_append.mpr (Or.inl h1))))
        have hdi_not : ∀ x ∈ di, x ∉ n :: d := by
          intro x hx hc
          exact hnvi x hx (List.mem_append.mpr (Or.inr hc))
        have hd2nd : (n :: (d ++ di)).Nodup := by
          rw [List.nodup_cons] at hnd ⊢
          refine ⟨?_, ?_⟩
          · intro hc
            rcases List.mem_append.mp hc with h1 | h1
            · exact hnd.1 h1
            · exact hdi_not n h1 (List.mem_cons_self _ _)
          · refine List.Nodup.append hnd.2 hndi ?_
            intro x hx hc
            exact hdi_not x hc (List.mem_cons_of_mem _ hx)
        have hd2nv : ∀ x ∈ n :: (d ++ di), x ∉ vis := by
          intro x hx
          rcases List.mem_cons.mp hx with rfl | hx
          · exact hn
          · rcases List.mem_append.mp hx with h1 | h1
            · exact hnv x (List.mem_cons_of_mem _ h1)
            · exact fun hc => hnvi x h1 (List.mem_append.mpr (Or.inl hc))
        have hd2re : ∀ x ∈ d ++ di, ReachAvoid l vis n x := by
          intro x hx
          rcases List.mem_append.mp hx with h1 | h1
          · exact hre x h1
          · exact reachAvoid_head l vis hn (hL a (List.mem_cons_self _ _))
              (reachAvoid_mono l vis (vis ++ n :: d)
                (fun y hy => List.mem_append.mpr (Or.inl hy)) (hrei x h1))
        have hd2cl : ∀ y ∈ d ++ di, ∀ z ∈ alGet l y, z ∈ vis ++ n :: (d ++ di) := by
          intro y hy z hz
          rcases List.mem_append.mp hy with h1 | h1
          · exact hsubv z (hcl y h1 z hz)
          · have := hcli y h1 z hz
            rwa [hassocV] at this
        have hd2m : measR l (vis ++ n :: (d ++ di)) < fuel :=
          lt_of_le_of_lt (measR_mono l (vis ++ n :: d) (vis ++ n :: (d ++ di)) hsubv) hm
        obtain ⟨e', heq', hnd', hnv', hre', hcl', hL'⟩ :=
          ihL (fun b hb => hL b (List.mem_cons_of_mem _ hb)) (d ++ di) comp
            hd2m hd2nd hd2nv hd2re hd2cl
        have hassocE : (d ++ di) ++ e' = d ++ (di ++ e') := List.append_assoc _ _ _
        refine ⟨di ++ e', ?_, ?_, ?_, ?_, ?_, ?_⟩
        · rw [heq', hassocE]
        · rw [← hassocE]; exact hnd'
        · rw [← hassocE]; exact hnv'
        · rw [← hassocE]; exact hre'
        · rw [← hassocE]; exact hcl'
        · intro z hz
          rcases List.mem_cons.mp hz with rfl | hz
          · refine List.mem_append.mpr (Or.inr (List.mem_cons_of_mem _ ?_))
            exact List.mem_append.mpr (Or.inr (List.mem_append.mpr (Or.inl hai)))
          · have := hL' z hz
            rwa [← hassocE]

end DfsRecSpec

section DfsRecMain

variable {α : Type} [DecidableEq α]

theorem dfsRecAux_spec (l : List (α × List α)) :
    ∀ (fuel : ℕ) (vis : List α) (n : α) (comp : List α),
      measR l vis < fuel → n ∉ vis →
      ∃ d, dfsRecAux l fuel n comp vis = (comp ++ d, vis ++ d) ∧
        d.Nodup ∧ n ∈ d ∧ (∀ x ∈ d, x ∉ vis) ∧
        (∀ x ∈ d, ReachAvoid l vis n x) ∧
        (∀ y ∈ d, ∀ z ∈ alGet l y, z ∈ vis ++ d) := by
  intro fuel
  induction fuel with
  | zero => intro vis n comp hm _; exact absurd hm (Nat.not_lt_zero _)
  | succ fuel ih =>
      intro vis n comp hm hn
      have hunfold : dfsRecAux l (fuel + 1) n comp vis =
          List.foldl (fun cv adjnode => if adjnode ∈ cv.2 then cv
            else dfsRecAux l fuel adjnode cv.1 cv.2)
            (comp ++ [n], vis ++ [n]) (alGet l n) := rfl
      rw [hunfold]
      rcases eq_or_ne (alGet l n) [] with hLnil | hLget
      · rw [hLnil]
        simp only [List.foldl_nil]
        refine ⟨[n], rfl, List.nodup_singleton n, List.mem_singleton.mpr rfl, ?_, ?_, ?_⟩
        · intro x hx
          rw [List.mem_singleton.mp hx]
          exact hn
        · intro x hx
          rw [List.mem_singleton.mp hx]
          exact ReachAvoid.refl n
        · intro y hy z hz
          rw [List.mem_singleton.mp hy, hLnil] at hz
          exact absurd hz (List.not_mem_nil z)
      · have hkey : n ∈ nodesOf l := mem_nodesOf_key l n hLget
        have hm1 : measR l vis ≤ fuel := Nat.lt_succ_iff.mp hm
        have hm2 : measR l (vis ++ [n]) < fuel :=
          lt_of_lt_of_le (measR_lt l vis n hkey hn) hm1
        obtain ⟨e, heq, hnd, hnv, hre, hcl, hLin⟩ :=
          dfsRecFold_spec l fuel ih vis n hn (alGet l n) (fun a ha => ha) [] comp
            hm2 (List.nodup_singleton n)
            (by
              intro x hx
              rw [List.mem_singleton.mp hx]
              exact hn)
            (by intro x hx; exact absurd hx (List.not_mem_nil x))
            (by intro y hy; exact absurd hy (List.not_mem_nil y))
        refine ⟨n :: e, ?_, by simpa using hnd, List.mem_cons_self _ _, ?_, ?_, ?_⟩
        · rw [heq]
          simp
        · intro x hx
          rcases List.mem_cons.mp hx with rfl | hx
          · exact hn
          · exact hnv x (by simpa using List.mem_cons_of_mem n (by simpa using hx))
        · intro x hx
          rcases List.mem_cons.mp hx with rfl | hx
          · exact ReachAvoid.refl x
          · exact hre x (by simpa using hx)
        · intro y hy z hz
          rcases List.mem_cons.mp hy with rfl | hy
          · have := hLin z hz
            simpa using this
          · have := hcl y (by simpa using hy) z hz
            simpa using this

theorem dfsrecrusive_correct (g : Graph α) (s : α) :
    (dfsrecrusive g s [] []).1.Nodup ∧
    (∀ x, x ∈ (dfsrecrusive g s [] []).1 ↔ ReachAvoid g.graph [] s x) := by
  have hm : measR g.graph [] < (nodesOf g.graph).length + 1 :=
    Nat.lt_succ_iff.mpr (measR_le _ _)
  obtain ⟨d, heq, hnd, hs, hnv, hre, hcl⟩ :=
    dfsRecAux_spec g.graph ((nodesOf g.graph).length + 1) [] s [] hm (List.not_mem_nil s)
  have hfst : (dfsrecrusive g s [] []).1 = d := by
    unfold dfsrecrusive
    rw [heq]
    simp
  rw [hfst]
  refine ⟨hnd, fun x => ⟨fun hx => hre x hx, fun hx => ?_⟩⟩
  induction hx with
  | refl => exact hs
  | tail h1 h2 h3 ih =>
      have := hcl _ ih _ h3
      simpa using this

end DfsRecMain

section DfsItSpec

variable {α : Type} [DecidableEq α]

/-- Total size of the adjacency lists of unvisited keys: combined with the
stack length this bounds the iterations of the explicit-stack traversal. -/
def adjW : List (α × List α) → List α → ℕ
  | [], _ => 0
  | kv :: rest, vis => (if kv.1 ∈ vis then 0 else kv.2.length) + adjW rest vis

theorem adjW_mono (l : List (α × List α)) (vis vis' : List α)
    (h : ∀ x ∈ vis, x ∈ vis') : adjW l vis' ≤ adjW l vis := by
  induction l with
  | nil => exact le_refl _
  | cons kv rest ih =>
      simp only [adjW]
      by_cases h1 : kv.1 ∈ vis
      · have h2 : kv.1 ∈ vis' := h _ h1
        simp only [if_pos h1, if_pos h2]
        omega
      · by_cases h2 : kv.1 ∈ vis'
        · simp only [if_neg h1, if_pos h2]
          omega
        · simp only [if_neg h1, if_neg h2]
          omega

theorem adjW_visit (l : List (α × List α)) (vis : List α) (node : α)
    (hnode : node ∉ vis) :
    adjW l (vis ++ [node]) + (alGet l node).length ≤ adjW l vis := by
  induction l with
  | nil => simp [adjW, alGet]
  | cons kv rest ih =>
      obtain ⟨k0, v0⟩ := kv
      simp only [adjW]
      by_cases hk : k0 = node
      · subst hk
        have hmem : k0 ∈ vis ++ [k0] :=
          List.mem_append.mpr (Or.inr (List.mem_singleton.mpr rfl))
        have hmono : adjW rest (vis ++ [k0]) ≤ adjW rest vis :=
          adjW_mono rest vis (vis ++ [k0]) (fun x hx => List.mem_append.mpr (Or.inl hx))
        have hget : alGet ((k0, v0) :: rest) k0 = v0 := by simp [alGet]
        rw [hget]
        simp only [if_pos hmem, if_neg hnode]
        omega
      · have hget : alGet ((k0, v0) :: rest) node = alGet rest node := by simp [alGet, hk]
        rw [hget]
        by_cases hv : k0 ∈ vis
        · have hv2 : k0 ∈ vis ++ [node] := List.mem_append.mpr (Or.inl hv)
          simp only [if_pos hv, if_pos hv2]
          omega
        · have hv2 : k0 ∉ vis ++ [node] := by
            intro hc
            rcases List.mem_append.mp hc with hc | hc
            · exact hv hc
            · exact hk (List.mem_singleton.mp hc)
          simp only [if_neg hv, if_neg hv2]
          omega

theorem adjW_le_nodesOf (l : List (α × List α)) : adjW l [] ≤ (nodesOf l).length := by
  induction l with
  | nil => simp [adjW, nodesOf]
  | cons kv rest ih =>
      have h1 : adjW (kv :: rest) [] = kv.2.length + adjW rest [] := by
        simp [adjW]
      have h2 : (nodesOf (kv :: rest)).length = 1 + kv.2.length + (nodesOf rest).length := by
        simp [nodesOf]
        omega
      rw [h1, h2]
      omega

theorem dfsItAux_spec (l : List (α × List α)) (vis0 : List α) (n : α) (hn : n ∉ vis0) :
    ∀ (fuel : ℕ) (stack d comp : List α),
      stack.length + adjW l (vis0 ++ d) < fuel →
      d.Nodup →
      (∀ x ∈ d, x ∉ vis0) →
      (∀ x ∈ d, ReachAvoid l vis0 n x) →
      (∀ s ∈ stack, s ∈ vis0 ∨ ReachAvoid l vis0 n s) →
      (∀ y ∈ d, ∀ z ∈ alGet l y, z ∈ vis0 ++ d ∨ z ∈ stack) →
      (n ∈ d ∨ n ∈ stack) →
      ∃ e, dfsItAux l fuel stack comp (vis0 ++ d) = (comp ++ e, (vis0 ++ d) ++ e) ∧
        (d ++ e).Nodup ∧
        (∀ x ∈ e, x ∉ vis0) ∧
        (∀ x ∈ e, ReachAvoid l vis0 n x) ∧
        n ∈ d ++ e ∧
        (∀ y ∈ d ++ e, ∀ z ∈ alGet l y, z ∈ (vis0 ++ d) ++ e) := by
  intro fuel
  induction fuel with
  | zero => intro stack d comp hm _ _ _ _ _ _; exact absurd hm (Nat.not_lt_zero _)
  | succ fuel ih =>
      intro stack d comp hm hnd hnv hre hstack hclose hnin
      cases stack with
      | nil =>
          refine ⟨[], by simp [dfsItAux], by simpa using hnd, by simp, by simp, ?_, ?_⟩
          · simpa using hnin.resolve_right (List.not_mem_nil n)
          · intro y hy z hz
            simp only [List.append_nil]
            rcases hclose y (by simpa using hy) z hz with h1 | h1
            · exact h1
            · exact absurd h1 (List.not_mem_nil z)
      | cons node rest =>
          by_cases hv : node ∈ vis0 ++ d
          · have hstep : dfsItAux l (fuel + 1) (node :: rest) comp (vis0 ++ d) =
                dfsItAux l fuel rest comp (vis0 ++ d) := by
              simp [dfsItAux, hv]
            rw [hstep]
            have hm2 : rest.length + adjW l (vis0 ++ d) < fuel := by
              simp only [List.length_cons] at hm
              omega
            refine ih rest d comp hm2 hnd hnv hre
              (fun s hs => hstack s (List.mem_cons_of_mem _ hs)) ?_ ?_
            · intro y hy z hz
              rcases hclose y hy z hz with h1 | h1
              · exact Or.inl h1
              · rcases List.mem_cons.mp h1 with rfl | h1
                · exact Or.inl hv
                · exact Or.inr h1
            · rcases hnin with h1 | h1
              · exact Or.inl h1
              · rcases List.mem_cons.mp h1 with rfl | h1
                · left
                  rcases List.mem_append.mp hv with h2 | h2
                  · exact absurd h2 hn
                  · exact h2
                · exact Or.inr h1
          · have hstep : dfsItAux l (fuel + 1) (node :: rest) comp (vis0 ++ d) =
                dfsItAux l fuel ((alGet l node).reverse ++ rest) (comp ++ [node])
                  ((vis0 ++ d) ++ [node]) := by
              simp [dfsItAux, hv]
            rw [hstep]
            have hnode0 : node ∉ vis0 := fun hc => hv (List.mem_append.mpr (Or.inl hc))
            have hnoded : node ∉ d := fun hc => hv (List.mem_append.mpr (Or.inr hc))
            have hreach : ReachAvoid l vis0 n node :=
              (hstack node (List.mem_cons_self _ _)).resolve_left hnode0
            have hassocV : (vis0 ++ d) ++ [node] = vis0 ++ (d ++ [node]) :=
              List.append_assoc _ _ _
            rw [hassocV]
            have hm2 : ((alGet l node).reverse ++ rest).length +
                adjW l (vis0 ++ (d ++ [node])) < fuel := by
              have hvisit := adjW_visit l (vis0 ++ d) node hv
              rw [List.append_assoc] at hvisit
              simp only [List.length_append, List.length_reverse, List.length_cons] at hm ⊢
              omega
            obtain ⟨e', heq', hnd', hnv', hre', hnin', hcl'⟩ :=
              ih ((alGet l node).reverse ++ rest) (d ++ [node]) (comp ++ [node]) hm2
                (by
                  refine List.Nodup.append hnd (List.nodup_singleton node) ?_
                  intro x hx hc
                  rw [List.mem_singleton.mp hc] at hx
                  exact hnoded hx)
                (by
                  intro x hx
                  rcases List.mem_append.mp hx with h1 | h1
                  · exact hnv x h1
                  · rw [List.mem_singleton.mp h1]
                    exact hnode0)
                (by
                  intro x hx
                  rcases List.mem_append.mp hx with h1 | h1
                  · exact hre x h1
                  · rw [List.mem_singleton.mp h1]
                    exact hreach)
                (by
                  intro s hs
                  rcases List.mem_append.mp hs with h1 | h1
                  · exact Or.inr (ReachAvoid.tail hreach hnode0 (List.mem_reverse.mp h1))
                  · exact hstack s (List.mem_cons_of_mem _ h1))
                (by
                  intro y hy z hz
                  rcases List.mem_append.mp hy with h1 | h1
                  · rcases hclose y h1 z hz with h2 | h2
                    · left
                      rcases List.mem_append.mp h2 with h3 | h3
                      · exact List.mem_append.mpr (Or.inl h3)
                      · exact List.mem_append.mpr
                          (Or.inr (List.mem_append.mpr (Or.inl h3)))
                    · rcases List.mem_cons.mp h2 with rfl | h2
                      · exact Or.inl (List.mem_append.mpr
                          (Or.inr (List.mem_append.mpr (Or.inr (List.mem_singleton.mpr rfl)))))
                      · exact Or.inr (List.mem_append.mpr (Or.inr h2))
                  · rw [List.mem_singleton.mp h1] at hz
                    exact Or.inr (List.mem_append.mpr (Or.inl (List.mem_reverse.mpr hz))))
                (by
                  rcases hnin with h1 | h1
                  · exact Or.inl (List.mem_append.mpr (Or.inl h1))
                  · rcases List.mem_cons.mp h1 with rfl | h1
                    · exact Or.inl (List.mem_append.mpr
                        (Or.inr (List.mem_singleton.mpr rfl)))
                    · exact Or.inr (List.mem_append.mpr (Or.inr h1)))
            have hE : (d ++ [node]) ++ e' = d ++ (node :: e') := by simp
            have hC : (comp ++ [node]) ++ e' = comp ++ (node :: e') := by simp
            have hV : (vis0 ++ (d ++ [node])) ++ e' = (vis0 ++ d) ++ (node :: e') := by simp
            refine ⟨node :: e', ?_, ?_, ?_, ?_, ?_, ?_⟩
            · rw [heq', hC, hV]
            · rw [← hE]; exact hnd'
            · intro x hx
              rcases List.mem_cons.mp hx with rfl | hx
              · exact hnode0
              · exact hnv' x hx
            · intro x hx
              rcases List.mem_cons.mp hx with rfl | hx
              · exact hreach
              · exact hre' x hx
            · rw [← hE]; exact hnin'
            · intro y hy z hz
              rw [← hE] at hy
              have := hcl' y hy z hz
              rw [hV] at this
              exact this

end DfsItSpec

section ClaimC8

variable {α : Type} [DecidableEq α]

theorem dfsiterative_correct (g : Graph α) (s : α) :
    (dfsiterative g s []).1.Nodup ∧
    (∀ x, x ∈ (dfsiterative g s []).1 ↔ ReachAvoid g.graph [] s x) := by
  have hm : ([s] : List α).length + adjW g.graph (([] : List α) ++ []) <
      (nodesOf g.graph).length + 2 + ([] : List α).length := by
    have := adjW_le_nodesOf g.graph
    simp only [List.length_singleton, List.append_nil, List.length_nil]
    omega
  obtain ⟨e, heq, hnd, hnv, hre, hnin, hcl⟩ :=
    dfsItAux_spec g.graph [] s (List.not_mem_nil s)
      ((nodesOf g.graph).length + 2 + ([] : List α).length) [s] [] [] hm
      List.nodup_nil
      (by intro x hx; exact absurd hx (List.not_mem_nil x))
      (by intro x hx; exact absurd hx (List.not_mem_nil x))
      (by
        intro t ht
        right
        rw [List.mem_singleton.mp ht]
        exact ReachAvoid.refl s)
      (by intro y hy; exact absurd hy (List.not_mem_nil y))
      (Or.inr (List.mem_singleton.mpr rfl))
  have hkey : dfsiterative g s [] =
      dfsItAux g.graph ((nodesOf g.graph).length + 2 + ([] : List α).length)
        [s] [] (([] : List α) ++ []) := rfl
  have hfst : (dfsiterative g s []).1 = e := by
    rw [hkey, heq]
    simp
  rw [hfst]
  have hinE : s ∈ e := by simpa using hnin
  refine ⟨by simpa using hnd, fun x => ⟨fun hx => hre x hx, fun hx => ?_⟩⟩
  induction hx with
  | refl => exact hinE
  | tail h1 h2 h3 ih =>
      have := hcl _ (by simpa using ih) _ h3
      simpa using this

/-- **C8** (confirmed): on any graph state and any start node, the
explicit-stack traversal (`dfsiterative` with an empty visited list) and the
recursive traversal (`dfsrecrusive` with empty component and visited lists)
return components that are duplicate-free and contain exactly the same
nodes — precisely the nodes reachable from the start along stored
adjacency. -/
theorem c8_dfs_equivalence (g : Graph α) (s : α) :
    (dfsiterative g s []).1.Nodup ∧
    (dfsrecrusive g s [] []).1.Nodup ∧
    (∀ x, x ∈ (dfsiterative g s []).1 ↔ x ∈ (dfsrecrusive g s [] []).1) ∧
    (∀ x, x ∈ (dfsrecrusive g s [] []).1 ↔ ReachAvoid g.graph [] s x) := by
  obtain ⟨h1, h2⟩ := dfsiterative_correct g s
  obtain ⟨h3, h4⟩ := dfsrecrusive_correct g s
  exact ⟨h1, h3, fun x => (h2 x).trans (h4 x).symm, h4⟩

end ClaimC8

section ClaimC10

variable {α : Type} [DecidableEq α]

theorem dfsrecrusive_isolated (g : Graph α) (n : α) (vis : List α)
    (h : alGet g.graph n = []) :
    dfsrecrusive g n [] vis = ([n], vis ++ [n]) := by
  have hunfold : dfsrecrusive g n [] vis =
      List.foldl (fun cv adjnode => if adjnode ∈ cv.2 then cv
        else dfsRecAux g.graph ((nodesOf g.graph).length) adjnode cv.1 cv.2)
        (([] : List α) ++ [n], vis ++ [n]) (alGet g.graph n) := rfl
  rw [hunfold, h]
  simp

theorem dfsrecrusive_visited (g : Graph α) (k : α) (vis : List α) (hk : k ∉ vis) :
    ∃ d, (dfsrecrusive g k [] vis).2 = vis ++ d ∧
      ∀ x ∈ d, ReachAvoid g.graph vis k x := by
  obtain ⟨d, heq, _, _, _, hre, _⟩ :=
    dfsRecAux_spec g.graph ((nodesOf g.graph).length + 1) vis k []
      (Nat.lt_succ_iff.mpr (measR_le _ _)) hk
  refine ⟨d, ?_, hre⟩
  unfold dfsrecrusive
  rw [heq]

theorem ccAux_prefix (g : Graph α) :
    ∀ (l : List (α × List α)) (acc : List (List α) × List α),
      ∃ more, (ccAux g l acc).1 = acc.1 ++ more := by
  intro l
  induction l with
  | nil => intro acc; exact ⟨[], by simp [ccAux]⟩
  | cons kv rest ih =>
      intro acc
      by_cases h : kv.1 ∈ acc.2
      · obtain ⟨m, hm⟩ := ih acc
        refine ⟨m, ?_⟩
        simp only [ccAux, if_pos h]
        exact hm
      · obtain ⟨m, hm⟩ := ih
          ((acc.1 ++ [(dfsrecrusive g kv.1 [] acc.2).1], (dfsrecrusive g kv.1 [] acc.2).2))
        refine ⟨[(dfsrecrusive g kv.1 [] acc.2).1] ++ m, ?_⟩
        simp only [ccAux, if_neg h]
        rw [hm, List.append_assoc]

theorem ccAux_isolated_mem (g : Graph α) (n : α) (hs : Symm g)
    (hgn : alGet g.graph n = []) :
    ∀ (l : List (α × List α)) (acc : List (List α) × List α),
      n ∈ alKeys l → n ∉ acc.2 →
      [n] ∈ (ccAux g l acc).1 := by
  intro l
  induction l with
  | nil => intro acc h _; simp [alKeys] at h
  | cons kv rest ih =>
      intro acc hmem hnacc
      by_cases hk : kv.1 = n
      · have hdfs : dfsrecrusive g kv.1 [] acc.2 = ([n], acc.2 ++ [n]) := by
          rw [hk]
          exact dfsrecrusive_isolated g n acc.2 hgn
        have hin : kv.1 ∉ acc.2 := by rw [hk]; exact hnacc
        have hstep : ccAux g (kv :: rest) acc =
            ccAux g rest (acc.1 ++ [[n]], acc.2 ++ [n]) := by
          simp only [ccAux, if_neg hin, hdfs]
        rw [hstep]
        obtain ⟨m, hm⟩ := ccAux_prefix g rest (acc.1 ++ [[n]], acc.2 ++ [n])
        rw [hm]
        exact List.mem_append.mpr (Or.inl (List.mem_append.mpr
          (Or.inr (List.mem_singleton.mpr rfl))))
      · have hrest : n ∈ alKeys rest := by
          have : n ∈ kv.1 :: alKeys rest := by simpa [alKeys] using hmem
          rcases List.mem_cons.mp this with h1 | h1
          · exact absurd h1.symm hk
          · exact h1
        by_cases hin : kv.1 ∈ acc.2
        · have hstep : ccAux g (kv :: rest) acc = ccAux g rest acc := by
            simp only [ccAux, if_pos hin]
          rw [hstep]
          exact ih acc hrest hnacc
        · obtain ⟨d, hd, hdre⟩ := dfsrecrusive_visited g kv.1 acc.2 hin
          have hnd : n ∉ (dfsrecrusive g kv.1 [] acc.2).2 := by
            rw [hd]
            intro hc
            rcases List.mem_append.mp hc with h1 | h1
            · exact hnacc h1
            · have hr : ReachAvoid g.graph [] kv.1 n :=
                reachAvoid_mono g.graph [] acc.2 (fun x hx => absurd hx (List.not_mem_nil x))
                  (hdre n h1)
              obtain ⟨y, hy⟩ := reachAvoid_exists_pred g.graph [] hr hk
              have := hs y n hy
              rw [hgn] at this
              exact absurd this (List.not_mem_nil y)
          have hstep : ccAux g (kv :: rest) acc =
              ccAux g rest
                (acc.1 ++ [(dfsrecrusive g kv.1 [] acc.2).1],
                  (dfsrecrusive g kv.1 [] acc.2).2) := by
            simp only [ccAux, if_neg hin]
          rw [hstep]
          exact ih _ hrest hnd

/-- **C10** (confirmed): a node that is a key of the adjacency map with an
empty neighbour set (so `nodeExists` returns false) still shows up in
`connectedComps` as the singleton component `[n]`, and consequently
`areConnected(n, n)` is true even though `nodeExists(n)` is false.
(Symmetric storage — true of every state reachable by the public
operations — guarantees no earlier traversal can have visited `n`.) -/
theorem c10_isolated_key_component (g : Graph α) (n : α) (hs : Symm g)
    (hmem : alHas g.graph n = true) (hemp : alGet g.graph n = []) :
    [n] ∈ connectedComps g ∧ areConnected g n n = true ∧ (nodeExists g n).1 = false := by
  have h1 : [n] ∈ connectedComps g := by
    unfold connectedComps
    exact ccAux_isolated_mem g n hs hemp g.graph ([], [])
      ((alHas_iff_mem_keys _ _).mp hmem) (List.not_mem_nil n)
  refine ⟨h1, ?_, ?_⟩
  · unfold areConnected
    rw [List.any_eq_true]
    exact ⟨[n], h1, by simp⟩
  · rw [nodeExists_fst_false_iff]
    exact hemp

/-- **C10** (witness): the adjacency map `{7 : ∅}`. -/
theorem c10_isolated_key_component_witness :
    [7] ∈ connectedComps (⟨[(7, [])], []⟩ : Graph ℕ) ∧
    areConnected (⟨[(7, [])], []⟩ : Graph ℕ) 7 7 = true ∧
    (nodeExists (⟨[(7, [])], []⟩ : Graph ℕ) 7).1 = false :=
  c10_isolated_key_component (⟨[(7, [])], []⟩ : Graph ℕ) 7
    (symmCheck_symm _ (by decide)) (by decide) (by decide)

end ClaimC10

section ClaimC9Lemmas

variable {α : Type} [DecidableEq α]

theorem vertIndices_map_fst (g : Graph α) :
    (vertIndices g).map Prod.fst = alKeys g.graph := by
  unfold vertIndices alKeys
  rw [List.map_map]
  have h1 : (Prod.fst ∘ fun iv : ℕ × (α × List α) => (iv.2.1, iv.1)) =
      (Prod.fst ∘ Prod.snd) := rfl
  rw [h1, ← List.map_map, List.enum_map_snd]

theorem vertIndices_map_snd (g : Graph α) :
    (vertIndices g).map Prod.snd = List.range g.graph.length := by
  unfold vertIndices
  rw [List.map_map]
  have h1 : (Prod.snd ∘ fun iv : ℕ × (α × List α) => (iv.2.1, iv.1)) = Prod.fst := rfl
  rw [h1, List.enum_map_fst]

theorem vGet_enumFrom (l : List (α × List α)) :
    ∀ (k : ℕ) (a : α),
      vGet ((List.enumFrom k l).map (fun iv => (iv.2.1, iv.1))) a =
        if a ∈ alKeys l then some (k + (alKeys l).indexOf a) else none := by
  induction l with
  | nil => intro k a; simp [vGet, alKeys]
  | cons kv rest ih =>
      intro k a
      obtain ⟨k0, v0⟩ := kv
      simp only [List.enumFrom, List.map_cons]
      by_cases h : k0 = a
      · subst h
        have hmem : k0 ∈ alKeys ((k0, v0) :: rest) := by simp [alKeys]
        have hidx : (alKeys ((k0, v0) :: rest)).indexOf k0 = 0 := by
          simp [alKeys, List.indexOf_cons_self]
        simp [vGet, hmem, hidx]
      · have hkeys : alKeys ((k0, v0) :: rest) = k0 :: alKeys rest := rfl
        have hstep : vGet (((k0, v0).1, k) :: (List.enumFrom (k + 1) rest).map
            (fun iv => (iv.2.1, iv.1))) a =
            vGet ((List.enumFrom (k + 1) rest).map (fun iv => (iv.2.1, iv.1))) a := by
          simp [vGet, h]
        rw [hstep, ih (k + 1) a, hkeys]
        by_cases hmem : a ∈ alKeys rest
        · have hmem2 : a ∈ k0 :: alKeys rest := List.mem_cons_of_mem _ hmem
          rw [if_pos hmem, if_pos hmem2, List.indexOf_cons_ne _ h]
          congr 1
          omega
        · have hmem2 : a ∉ k0 :: alKeys rest := by
            intro hc
            rcases List.mem_cons.mp hc with hc | hc
            · exact h hc.symm
            · exact hmem hc
          rw [if_neg hmem, if_neg hmem2]

theorem vGet_vertIndices (g : Graph α) (a : α) :
    vGet (vertIndices g) a =
      if a ∈ alKeys g.graph then some ((alKeys g.graph).indexOf a) else none := by
  have h0 : vertIndices g = (List.enumFrom 0 g.graph).map (fun iv => (iv.2.1, iv.1)) := rfl
  rw [h0, vGet_enumFrom]
  by_cases h : a ∈ alKeys g.graph <;> simp [h]

theorem mem_map_pair (a : α) (L : List α) (x y : α) :
    (x, y) ∈ L.map (fun z => (a, z)) ↔ x = a ∧ y ∈ L := by
  rw [List.mem_map]
  constructor
  · rintro ⟨z, hz, hzz⟩
    have h1 : a = x := congrArg Prod.fst hzz
    have h2 : z = y := congrArg Prod.snd hzz
    exact ⟨h1.symm, h2 ▸ hz⟩
  · rintro ⟨rfl, hy⟩
    exact ⟨y, hy, rfl⟩

theorem mem_combinations2_cons (a : α) (t : List α) (x y : α) :
    (x, y) ∈ combinations2 (a :: t) ↔ (x = a ∧ y ∈ t) ∨ (x, y) ∈ combinations2 t := by
  simp only [combinations2, List.mem_append, mem_map_pair]

theorem mem_combinations2_append_singleton (l : List α) (b x y : α) :
    (x, y) ∈ combinations2 (l ++ [b]) ↔
      (x, y) ∈ combinations2 l ∨ (x ∈ l ∧ y = b) := by
  induction l with
  | nil => simp [combinations2, mem_map_pair, eq_comm]
  | cons a t ih =>
      rw [List.cons_append, mem_combinations2_cons, ih, mem_combinations2_cons,
        List.mem_append, List.mem_singleton, List.mem_cons]
      tauto

theorem mem_combinations2_range (n : ℕ) (i j : ℕ) :
    (i, j) ∈ combinations2 (List.range n) ↔ i < j ∧ j < n := by
  induction n with
  | zero => simp [combinations2]
  | succ n ih =>
      rw [List.range_succ, mem_combinations2_append_singleton, ih, List.mem_range]
      omega

theorem val_eq_alGet_of_mem (l : List (α × List α)) (hk : (alKeys l).Nodup)
    (kv : α × List α) (h : kv ∈ l) : kv.2 = alGet l kv.1 := by
  induction l with
  | nil => exact absurd h (List.not_mem_nil kv)
  | cons kv0 rest ih =>
      simp only [alKeys, List.map_cons, List.nodup_cons] at hk
      rcases List.mem_cons.mp h with rfl | h
      · simp [alGet]
      · have hne : kv0.1 ≠ kv.1 := by
          intro hc
          apply hk.1
          rw [hc]
          exact List.mem_map.mpr ⟨kv, h, rfl⟩
        have : alGet (kv0 :: rest) kv.1 = alGet rest kv.1 := by
          obtain ⟨a0, v0⟩ := kv0
          simp [alGet, hne]
        rw [this]
        exact ih hk.2 h

end ClaimC9Lemmas

section ClaimC9Main

variable {α : Type} [DecidableEq α]

/-- The directed index pairs collect by `edgeIndices` before deduplication. -/
def rawPairs (g : Graph α) : List (Option ℕ × Option ℕ) :=
  g.graph.flatMap (fun kv => kv.2.map (fun adj => (vGet (vertIndices g) kv.1, vGet (vertIndices g) adj)))

/-- The index pairs surviving the intersection with
`combinations(vertIndices.values(), 2)`. -/
def keptPairs (g : Graph α) : List (Option ℕ × Option ℕ) :=
  (rawPairs g).dedup.filter
    (fun p => (combinations2 ((vertIndices g).map Prod.snd)).any
      (fun q => p = (some q.1, some q.2)))

theorem edgeIndices_eq (g : Graph α) :
    edgeIndices g = (keptPairs g).flatMap (fun p =>
      match p with
      | (some i, some j) => [i, j]
      | _ => []) := rfl

/-- The normalised stored adjacencies counted by `specUndirectedEdgeCount`. -/
def normPairs (g : Graph α) : List (α × α) :=
  g.graph.flatMap (fun kv =>
    kv.2.map (fun m =>
      if keyPos g kv.1 ≤ keyPos g m then (kv.1, m) else (m, kv.1)))

theorem specUndirectedEdgeCount_eq (g : Graph α) :
    specUndirectedEdgeCount g = (normPairs g).dedup.length := rfl

theorem mem_keys_of_alGet_ne_nil (l : List (α × List α)) (u : α)
    (h : alGet l u ≠ []) : u ∈ alKeys l :=
  List.mem_map.mpr ⟨(u, alGet l u), mem_entry_of_alGet l u h, rfl⟩

theorem alGet_ne_nil_of_mem (l : List (α × List α)) (u m : α)
    (h : m ∈ alGet l u) : alGet l u ≠ [] := by
  intro hc
  rw [hc] at h
  exact absurd h (List.not_mem_nil m)

theorem alKeys_length (l : List (α × List α)) : (alKeys l).length = l.length :=
  List.length_map _ _

theorem mem_rawPairs (g : Graph α) (hk : WFKeys g) (p : Option ℕ × Option ℕ) :
    p ∈ rawPairs g ↔
      ∃ u m, m ∈ alGet g.graph u ∧ p = (vGet (vertIndices g) u, vGet (vertIndices g) m) := by
  unfold rawPairs
  rw [List.mem_flatMap]
  constructor
  · rintro ⟨kv, hkv, hp⟩
    rw [List.mem_map] at hp
    obtain ⟨adj, hadj, rfl⟩ := hp
    refine ⟨kv.1, adj, ?_, rfl⟩
    rw [← val_eq_alGet_of_mem g.graph hk kv hkv]
    exact hadj
  · rintro ⟨u, m, hm, rfl⟩
    refine ⟨(u, alGet g.graph u),
      mem_entry_of_alGet _ _ (alGet_ne_nil_of_mem _ _ _ hm), ?_⟩
    rw [List.mem_map]
    exact ⟨m, hm, rfl⟩

theorem mem_normPairs (g : Graph α) (hk : WFKeys g) (hs : Symm g) (u v : α) :
    (u, v) ∈ normPairs g ↔ v ∈ alGet g.graph u ∧ keyPos g u ≤ keyPos g v := by
  unfold normPairs
  rw [List.mem_flatMap]
  constructor
  · rintro ⟨kv, hkv, hmem⟩
    rw [List.mem_map] at hmem
    obtain ⟨m, hm, hnorm⟩ := hmem
    have hval : m ∈ alGet g.graph kv.1 := by
      rw [← val_eq_alGet_of_mem g.graph hk kv hkv]
      exact hm
    by_cases hle : keyPos g kv.1 ≤ keyPos g m
    · rw [if_pos hle] at hnorm
      have h1 : kv.1 = u := congrArg Prod.fst hnorm
      have h2 : m = v := congrArg Prod.snd hnorm
      subst h1
      subst h2
      exact ⟨hval, hle⟩
    · rw [if_neg hle] at hnorm
      have h1 : m = u := congrArg Prod.fst hnorm
      have h2 : kv.1 = v := congrArg Prod.snd hnorm
      subst h1
      subst h2
      exact ⟨hs _ _ hval, by omega⟩
  · rintro ⟨hv, hle⟩
    refine ⟨(u, alGet g.graph u),
      mem_entry_of_alGet _ _ (alGet_ne_nil_of_mem _ _ _ hv), ?_⟩
    rw [List.mem_map]
    refine ⟨v, hv, ?_⟩
    rw [if_pos hle]

theorem mem_keptPairs (g : Graph α) (hk : WFKeys g) (hs : Symm g)
    (p : Option ℕ × Option ℕ) :
    p ∈ keptPairs g ↔
      ∃ u v, v ∈ alGet g.graph u ∧ keyPos g u < keyPos g v ∧
        p = (some (keyPos g u), some (keyPos g v)) := by
  unfold keptPairs
  rw [List.mem_filter, List.mem_dedup]
  constructor
  · rintro ⟨hraw, hfil⟩
    rw [List.any_eq_true] at hfil
    obtain ⟨q, hq, hpq⟩ := hfil
    have hpq2 : p = (some q.1, some q.2) := of_decide_eq_true hpq
    rw [vertIndices_map_snd] at hq
    have hq2 : (q.1, q.2) ∈ combinations2 (List.range g.graph.length) := by
      rw [Prod.mk.eta]
      exact hq
    have hij := (mem_combinations2_range _ _ _).mp hq2
    obtain ⟨u, m, hm, hp⟩ := (mem_rawPairs g hk p).mp hraw
    have hukey : u ∈ alKeys g.graph :=
      mem_keys_of_alGet_ne_nil _ _ (alGet_ne_nil_of_mem _ _ _ hm)
    have hmkey : m ∈ alKeys g.graph :=
      mem_keys_of_alGet_ne_nil _ _ (alGet_ne_nil_of_mem _ _ _ (hs _ _ hm))
    rw [vGet_vertIndices, vGet_vertIndices, if_pos hukey, if_pos hmkey] at hp
    have hqu : q.1 = keyPos g u := by
      have := hp.symm.trans hpq2
      have h1 := congrArg Prod.fst this
      exact (Option.some.inj h1).symm
    have hqm : q.2 = keyPos g m := by
      have := hp.symm.trans hpq2
      have h2 := congrArg Prod.snd this
      exact (Option.some.inj h2).symm
    refine ⟨u, m, hm, ?_, ?_⟩
    · rw [← hqu, ← hqm]
      exact hij.1
    · rw [hp]
      rfl
  · rintro ⟨u, v, hv, hlt, rfl⟩
    have hukey : u ∈ alKeys g.graph :=
      mem_keys_of_alGet_ne_nil _ _ (alGet_ne_nil_of_mem _ _ _ hv)
    have hvkey : v ∈ alKeys g.graph :=
      mem_keys_of_alGet_ne_nil _ _ (alGet_ne_nil_of_mem _ _ _ (hs _ _ hv))
    constructor
    · rw [mem_rawPairs g hk]
      refine ⟨u, v, hv, ?_⟩
      rw [vGet_vertIndices, vGet_vertIndices, if_pos hukey, if_pos hvkey]
      rfl
    · rw [List.any_eq_true]
      refine ⟨(keyPos g u, keyPos g v), ?_, decide_eq_true rfl⟩
      rw [vertIndices_map_snd]
      apply (mem_combinations2_range _ _ _).mpr
      refine ⟨hlt, ?_⟩
      have := List.indexOf_lt_length.mpr hvkey
      rw [alKeys_length] at this
      exact this

end ClaimC9Main

section ClaimC9Final

variable {α : Type} [DecidableEq α]

theorem keptPairs_shape (g : Graph α) : ∀ p ∈ keptPairs g, ∃ i j, p = (some i, some j) := by
  intro p hp
  unfold keptPairs at hp
  rw [List.mem_filter] at hp
  have h2 := hp.2
  rw [List.any_eq_true] at h2
  obtain ⟨q, _, hq⟩ := h2
  exact ⟨q.1, q.2, of_decide_eq_true hq⟩

theorem flatMap_pairs_length (L : List (Option ℕ × Option ℕ))
    (h : ∀ p ∈ L, ∃ i j, p = (some i, some j)) :
    (L.flatMap (fun p =>
      match p with
      | (some i, some j) => [i, j]
      | _ => [])).length = 2 * L.length := by
  induction L with
  | nil => simp
  | cons p L ih =>
      obtain ⟨i, j, rfl⟩ := h p (List.mem_cons_self _ _)
      rw [List.flatMap_cons, List.length_append,
        ih (fun q hq => h q (List.mem_cons_of_mem _ hq))]
      simp only [List.length_cons, List.length_nil]
      omega

theorem kept_length_eq (g : Graph α) (hk : WFKeys g) (hs : Symm g) (hnl : NoLoop g) :
    (keptPairs g).length = (normPairs g).dedup.length := by
  have hkeptnd : (keptPairs g).Nodup := List.Nodup.filter _ (List.nodup_dedup _)
  have hNnd : ((normPairs g).dedup).Nodup := List.nodup_dedup _
  rw [← List.toFinset_card_of_nodup hkeptnd, ← List.toFinset_card_of_nodup hNnd]
  symm
  apply Finset.card_bij
    (fun q _ => ((some (keyPos g q.1), some (keyPos g q.2)) : Option ℕ × Option ℕ))
  · intro q hq
    rw [List.mem_toFinset, List.mem_dedup] at hq
    have hq2 : (q.1, q.2) ∈ normPairs g := by
      rw [Prod.mk.eta]
      exact hq
    obtain ⟨hv, hle⟩ := (mem_normPairs g hk hs q.1 q.2).mp hq2
    rw [List.mem_toFinset, mem_keptPairs g hk hs]
    refine ⟨q.1, q.2, hv, ?_, rfl⟩
    have hukey : q.1 ∈ alKeys g.graph :=
      mem_keys_of_alGet_ne_nil _ _ (alGet_ne_nil_of_mem _ _ _ hv)
    have hvkey : q.2 ∈ alKeys g.graph :=
      mem_keys_of_alGet_ne_nil _ _ (alGet_ne_nil_of_mem _ _ _ (hs _ _ hv))
    have hne : q.1 ≠ q.2 := by
      intro hc
      exact hnl q.2 (hc ▸ hv)
    have hpos : keyPos g q.1 ≠ keyPos g q.2 := by
      intro hc
      exact hne ((List.indexOf_inj hukey hvkey).mp hc)
    omega
  · intro q1 h1 q2 h2 heq
    rw [List.mem_toFinset, List.mem_dedup] at h1 h2
    have hq1 : (q1.1, q1.2) ∈ normPairs g := by rw [Prod.mk.eta]; exact h1
    have hq2 : (q2.1, q2.2) ∈ normPairs g := by rw [Prod.mk.eta]; exact h2
    obtain ⟨hv1, _⟩ := (mem_normPairs g hk hs q1.1 q1.2).mp hq1
    obtain ⟨hv2, _⟩ := (mem_normPairs g hk hs q2.1 q2.2).mp hq2
    have e1 : keyPos g q1.1 = keyPos g q2.1 :=
      Option.some.inj (congrArg Prod.fst heq)
    have e2 : keyPos g q1.2 = keyPos g q2.2 :=
      Option.some.inj (congrArg Prod.snd heq)
    have hu1 : q1.1 ∈ alKeys g.graph :=
      mem_keys_of_alGet_ne_nil _ _ (alGet_ne_nil_of_mem _ _ _ hv1)
    have hu2 : q2.1 ∈ alKeys g.graph :=
      mem_keys_of_alGet_ne_nil _ _ (alGet_ne_nil_of_mem _ _ _ hv2)
    have hw1 : q1.2 ∈ alKeys g.graph :=
      mem_keys_of_alGet_ne_nil _ _ (alGet_ne_nil_of_mem _ _ _ (hs _ _ hv1))
    have hw2 : q2.2 ∈ alKeys g.graph :=
      mem_keys_of_alGet_ne_nil _ _ (alGet_ne_nil_of_mem _ _ _ (hs _ _ hv2))
    have hfst : q1.1 = q2.1 := (List.indexOf_inj hu1 hu2).mp e1
    have hsnd : q1.2 = q2.2 := (List.indexOf_inj hw1 hw2).mp e2
    exact Prod.ext hfst hsnd
  · intro p hp
    rw [List.mem_toFinset, mem_keptPairs g hk hs] at hp
    obtain ⟨u, v, hv, hlt, rfl⟩ := hp
    refine ⟨(u, v), ?_, rfl⟩
    rw [List.mem_toFinset, List.mem_dedup]
    exact (mem_normPairs g hk hs u v).mpr ⟨hv, le_of_lt hlt⟩

/-- **C9** (counterexample): the index-intersection trick of `edgeIndices`
drops an edge stored only in the descending-index direction (state
`{0 : ∅, 1 : {0}}` — one distinct undirected edge, empty index list), and it
also drops a stored self-loop (`{3 : {3}}`), so the stated length identity
and "regardless of the direction in which it is stored" fail. -/
theorem c9_counterexample :
    edgeIndices gAsym = [] ∧
    specUndirectedEdgeCount gAsym = 1 ∧
    ¬ (edgeIndices gAsym).length = 2 * specUndirectedEdgeCount gAsym ∧
    edgeIndices (⟨[(3, [3])], []⟩ : Graph ℕ) = [] ∧
    specUndirectedEdgeCount (⟨[(3, [3])], []⟩ : Graph ℕ) = 1 := by
  decide

/-- **C9** (amended): `vertIndices` always has exactly one entry per
adjacency-map key, assigning `0 .. n-1` in key order; and on states whose
storage is symmetric and self-loop free (as every state built by the public
operations with distinct endpoints is), `edgeIndices` has length exactly
`2 ×` the number of distinct undirected edges, each edge contributing its
index pair exactly once. -/
theorem c9_index_tables (g : Graph α) (hk : WFKeys g) (hs : Symm g) (hnl : NoLoop g) :
    (vertIndices g).map Prod.fst = alKeys g.graph ∧
    (vertIndices g).map Prod.snd = List.range g.graph.length ∧
    (edgeIndices g).length = 2 * specUndirectedEdgeCount g := by
  refine ⟨vertIndices_map_fst g, vertIndices_map_snd g, ?_⟩
  rw [edgeIndices_eq, flatMap_pairs_length _ (keptPairs_shape g),
    kept_length_eq g hk hs hnl, specUndirectedEdgeCount_eq]

/-- Concrete graph for the C9 witness: edge `0 - 1` plus isolated key `2`. -/
def c9wg : Graph ℕ := ⟨[(0, [1]), (1, [0]), (2, [])], []⟩

/-- **C9** (witness): index consistency on a concrete symmetric state. -/
theorem c9_index_tables_witness :
    (edgeIndices c9wg).length = 2 * specUndirectedEdgeCount c9wg :=
  (c9_index_tables c9wg (by unfold WFKeys; decide) (symmCheck_symm _ (by decide))
    (loopCheck_noLoop _ (by decide))).2.2

end ClaimC9Final
